import Mathlib

/-!
Verification of the Grisu2 float-to-string core (`src/ftoa/grisu2.rs`) and the
signed-integer formatting callback (`lexical-write-integer/src/api.rs`) of the
rust-lexical repository, as a shallow embedding in Lean.

Machine integers are embedded as `Nat` with explicit wrapping (`% 2^64` for
`u64`, `% 256` for `u8`).  Buffers written through raw pointers are embedded as
the list of bytes written, so a function's `i32` byte-count return value is the
length of the returned list.  The two unbounded `while` loops (`round_digit`
and the fractional part of `generate_digits`) are embedded with explicit
fuel / with the finite `TENS` pointer walk, returning `none` on exhaustion, so
that a `some` result certifies termination of the loop.
-/

set_option maxRecDepth 10000

namespace RustLexical

/-- 64-bit wrapping addition (`u64` `+`). -/
def wadd (a b : Nat) : Nat := (a + b) % 2 ^ 64

/-- 64-bit wrapping subtraction (`u64` `-`), for operands below `2^64`. -/
def wsub (a b : Nat) : Nat := (a + 2 ^ 64 - b) % 2 ^ 64

/-- 64-bit wrapping multiplication (`u64` `*`). -/
def wmul (a b : Nat) : Nat := (a * b) % 2 ^ 64

/-- 64-bit truncating left shift (`u64` `<<`). -/
def wshl (a s : Nat) : Nat := (a <<< s) % 2 ^ 64

/-- The extended-precision float `FloatType { frac: u64, exp: i32 }` of the
`ftoa::float` module: value = `frac * 2 ^ exp`. -/
structure FloatType where
  frac : Nat
  exp : Int
deriving Repr, DecidableEq

/-- The `TENS` lookup table of `grisu2.rs` (descending powers of ten). -/
def TENS : List Nat := [
  10000000000000000000, 1000000000000000000, 100000000000000000,
  10000000000000000, 1000000000000000, 100000000000000,
  10000000000000, 1000000000000, 100000000000,
  10000000000, 1000000000, 100000000,
  10000000, 1000000, 100000,
  10000, 1000, 100,
  10, 1]

/-- Decrement the final byte of the digit buffer (`*digits.offset(ndigits - 1) -= 1`,
with `u8` wrapping). -/
def decLast : List Nat → List Nat
  | [] => []
  | [a] => [(a + 255) % 256]
  | a :: b :: rest => a :: decLast (b :: rest)

/-- `round_digit` of `grisu2.rs`: while the remaining error margin allows and
rounding down reduces the distance to `frac`, decrement the last digit.  The
source `while` loop is embedded with explicit fuel (`none` = fuel exhausted). -/
def round_digit : Nat → List Nat → Nat → Nat → Nat → Nat → Option (List Nat)
  | 0, _, _, _, _, _ => none
  | fuel + 1, digits, delta, rem, kappa, frac =>
    if rem < frac ∧ kappa ≤ wsub delta rem ∧
        (wadd rem kappa < frac ∨ wsub frac rem > wsub (wadd rem kappa) frac) then
      round_digit fuel (decLast digits) delta (wadd rem kappa) kappa frac
    else
      some digits

/-- The fractional-part loop of `generate_digits` (`grisu2.rs` lines 146-165).
The `unit` pointer walking down the `TENS` table is embedded as the list of
powers of ten it will read; running off the table yields `none`. -/
def fracLoop (s wfrac oneF : Nat) (k : Int) :
    List Nat → Nat → Nat → Int → List Nat → Option (List Nat × Int)
  | [], _, _, _, _ => none
  | unit :: units, part2, delta, kappa, digits =>
    let part2' := wmul part2 10
    let delta' := wmul delta 10
    let kappa' := kappa - 1
    let digit := part2' >>> s
    let digits' := if digit ≠ 0 ∨ digits ≠ [] then
        digits ++ [(digit % 256 + 48) % 256] else digits
    let part2'' := part2' &&& (oneF - 1)
    if part2'' < delta' then
      (round_digit 64 digits' delta' part2'' oneF (wmul wfrac unit)).map
        (fun ds => (ds, k + kappa'))
    else
      fracLoop s wfrac oneF k units part2'' delta' kappa' digits'

/-- The integer-part loop of `generate_digits` (`grisu2.rs` lines 116-141).
The `divp` pointer is embedded as the list of divisors still to be read
(`TENS.drop 10 = [10^9, …, 1]`); `kappa` after the decrement equals the length
of the remaining divisor list.  When the ten divisors are exhausted the
fractional-part loop takes over with the `unit` pointer at `TENS[18]`. -/
def intLoop (s wfrac delta part2 oneF : Nat) (k : Int) :
    List Nat → Nat → List Nat → Option (List Nat × Int)
  | [], _part1, digits =>
    fracLoop s wfrac oneF k ((TENS.take 19).reverse) part2 delta 0 digits
  | div :: divs, part1, digits =>
    let digit := part1 / div
    let digits' := if digit ≠ 0 ∨ digits ≠ [] then
        digits ++ [(digit % 256 + 48) % 256] else digits
    let part1' := part1 - digit * div
    let tmp := wadd (wshl part1' s) part2
    if tmp ≤ delta then
      (round_digit 64 digits' delta tmp (wshl div s) wfrac).map
        (fun ds => (ds, k + (divs.length : Int)))
    else
      intLoop s wfrac delta part2 oneF k divs part1' digits'

/-- `generate_digits` of `grisu2.rs`: split the scaled `upper` into integer and
fractional fixed-point parts at `-upper.exp` and generate decimal digits until
the remaining uncertainty is at most `delta`. -/
def generate_digits (fp upper lower : FloatType) (k : Int) : Option (List Nat × Int) :=
  let wfrac := wsub upper.frac fp.frac
  let delta := wsub upper.frac lower.frac
  let s := (-upper.exp).toNat
  let oneF := wshl 1 s
  let part1 := upper.frac >>> s
  let part2 := upper.frac &&& (oneF - 1)
  intLoop s wfrac delta part2 oneF k (TENS.drop 10) part1 []

/-- Modelled from the spec: the exponent marker character produced by the
missing `ftoa/util.rs` helper `exponent_notation_char` for radix 10 (`'e'`). -/
def exponent_notation_char (_radix : Nat) : Nat := 101

/-- The exponent-magnitude bytes written by the scientific branch of
`emit_digits` (`grisu2.rs` lines 265-284).  The source mutates `exp` in place;
here the intermediate values are expressed arithmetically: after the optional
hundreds digit the remainder is `e % 100` (`exp -= cent * 100`), and the final
byte is `(exp % 10) + b'0'`, i.e. `e % 10 + 48`.  A tens digit of `'0'` is
still written whenever a hundreds digit was written (`cent != 0`). -/
def sciExpDigits (e : Nat) : List Nat :=
  (if 99 < e then [(e / 100 % 256 + 48) % 256] else []) ++
  (if 9 < e % 100 then [e % 100 / 10 + 48] else if 99 < e then [48] else []) ++
  [e % 10 + 48]

/-- `emit_digits` of `grisu2.rs`: lay the generated digits out as plain integer
(`k >= 0`), plain decimal, or scientific notation.  The destination buffer is
embedded as the list of bytes written; the source's `i32` return value equals
the length of this list on every branch. -/
def emit_digits (digits : List Nat) (k : Int) : List Nat :=
  if 0 ≤ k ∧ ((k + (digits.length : Int) - 1).natAbs : Int) < (digits.length : Int) + 7 then
    digits ++ List.replicate k.toNat 48 ++ [46, 48]
  else if k < 0 ∧ (-7 < k ∨ ((k + (digits.length : Int) - 1).natAbs : Int) < 4) then
    if (digits.length : Int) - (k.natAbs : Int) ≤ 0 then
      48 :: 46 :: (List.replicate ((k.natAbs : Int) - (digits.length : Int)).toNat 48 ++ digits)
    else
      digits.take ((digits.length : Int) - (k.natAbs : Int)).toNat ++ [46] ++
        digits.drop ((digits.length : Int) - (k.natAbs : Int)).toNat
  else
    (if 1 < min digits.length 18 then
      digits.headD 0 :: 46 :: (digits.drop 1).take (min digits.length 18 - 1)
    else [digits.headD 0]) ++
    [exponent_notation_char 10,
     if k + (min digits.length 18 : Int) - 1 < 0 then 45 else 43] ++
    sciExpDigits (k + (digits.length : Int) - 1).natAbs

/-- Modelled from the spec (§4.1 `from_float`, the missing `ftoa/float.rs`):
decompose the IEEE-754 double bit pattern into `{frac, exp}`, adding the hidden
bit for normal values and special-casing denormals.  The exponent bias of the
62-bit significand form is 1075; denormals use exponent `-1074`. -/
def from_bits (bits : Nat) : FloatType :=
  if (bits / 2 ^ 52) % 2 ^ 11 = 0 then
    ⟨bits % 2 ^ 52, -1074⟩
  else
    ⟨bits % 2 ^ 52 + 2 ^ 52, ((bits / 2 ^ 52) % 2 ^ 11 : Nat) - 1075⟩

/-- Modelled from the spec (§4.1 `normalize`, the missing `ftoa/float.rs`):
left-shift the mantissa until its top bit is set, decrementing the exponent;
the source `while` loop is embedded with fuel 64 (enough for any `u64`). -/
def normalizeAux : Nat → Nat → Int → FloatType
  | 0, f, e => ⟨f, e⟩
  | fuel + 1, f, e => if f < 2 ^ 63 then normalizeAux fuel (f * 2) (e - 1) else ⟨f, e⟩

/-- Modelled from the spec (§4.1 `normalize`, the missing `ftoa/float.rs`). -/
def normalize (fp : FloatType) : FloatType := normalizeAux 64 fp.frac fp.exp

/-- Modelled from the spec (§4.1 `normalized_boundaries`, the missing
`ftoa/float.rs`): `upper` is the normalized midpoint to the next representable
float (`2f+1` at `exp-1`); `lower` is the midpoint to the previous one, shifted
two positions instead of one in the asymmetric exact-power-of-two case
(`frac = 2^52`), then aligned to `upper`'s exponent. -/
def normalized_boundaries (fp : FloatType) : FloatType × FloatType :=
  let upper := normalize ⟨2 * fp.frac + 1, fp.exp - 1⟩
  let lshift : Nat := if fp.frac = 2 ^ 52 then 2 else 1
  let lowerFrac := (fp.frac <<< lshift) - 1
  let lowerExp : Int := fp.exp - (lshift : Int)
  (⟨lowerFrac <<< (lowerExp - upper.exp).toNat, upper.exp⟩, upper)

/-- Modelled from the spec (§4.1 `fast_multiply`, the missing `ftoa/float.rs`):
multiply the two 64-bit mantissas with 128-bit intermediate precision, round
the kept 64 bits by adding the rounding bit `2^63`, and sum the exponents
plus 64. -/
def fast_multiply (a b : FloatType) : FloatType :=
  ⟨(a.frac * b.frac + 2 ^ 63) / 2 ^ 64, a.exp + b.exp + 64⟩

/-- Fuel-based floor of log base 2 (enough fuel for numbers up to `2^4096`). -/
def nlog2Aux : Nat → Nat → Nat
  | 0, _ => 0
  | fuel + 1, n => if n ≤ 1 then 0 else nlog2Aux fuel (n / 2) + 1

/-- Floor of log base 2. -/
def nlog2 (n : Nat) : Nat := nlog2Aux 4096 n

/-- Modelled from the spec (§4.2, the missing `ftoa/float.rs` power table):
the extended-precision value nearest to `10^q`, with the mantissa normalized
into `[2^63, 2^64)` and rounded to nearest (renormalizing on a rounding
carry). -/
def cachedPow (q : Int) : FloatType :=
  if 0 ≤ q then
    let n := 10 ^ q.toNat
    let L := nlog2 n
    if L ≤ 63 then ⟨n <<< (63 - L), (L : Int) - 63⟩
    else
      let sh := L - 63
      let fr := (2 * n + 2 ^ sh) / (2 * 2 ^ sh)
      if fr = 2 ^ 64 then ⟨2 ^ 63, (sh : Int) + 1⟩ else ⟨fr, (sh : Int)⟩
  else
    let m := 10 ^ (-q).toNat
    let kk := nlog2 m + 64
    let fr := (2 * 2 ^ kk + m) / (2 * m)
    if fr = 2 ^ 64 then ⟨2 ^ 63, -(kk : Int) + 1⟩ else ⟨fr, -(kk : Int)⟩

/-- Modelled from the spec (§4.2 `cached_power`, the missing `ftoa/float.rs`):
the table holds the 87 powers `10^(-348 + 8*i)`; select the entry whose scaled
binary exponent `exp + cp.exp + 64` lands in the fixed target window
`[-60, -32]`, and return it with its decimal exponent. -/
def cached_grisu_power (exp : Int) : FloatType × Int :=
  match (List.range 87).find? (fun i : Nat =>
      decide (-60 ≤ exp + (cachedPow (-348 + 8 * (i : Int))).exp + 64) &&
      decide (exp + (cachedPow (-348 + 8 * (i : Int))).exp + 64 ≤ -32)) with
  | some i => (cachedPow (-348 + 8 * (i : Int)), -348 + 8 * (i : Int))
  | none => (⟨2 ^ 63, 0⟩, 0)

/-- `grisu2` of `grisu2.rs`: normalize, compute boundaries, scale everything by
the cached power, tighten the boundary interval by one ulp on each side, and
generate the digits.  The input double is given by its bit pattern. -/
def grisu2 (bits : Nat) : Option (List Nat × Int) :=
  let w0 := from_bits bits
  let bounds := normalized_boundaries w0
  let w1 := normalize w0
  let cpki := cached_grisu_power bounds.2.exp
  let w2 := fast_multiply w1 cpki.1
  let upper := fast_multiply bounds.2 cpki.1
  let lower := fast_multiply bounds.1 cpki.1
  generate_digits w2 ⟨upper.frac - 1, upper.exp⟩ ⟨lower.frac + 1, lower.exp⟩ (-cpki.2)

/-- `fpconv_dtoa` of `grisu2.rs`: run `grisu2` into the 18-byte digit buffer,
then `emit_digits` into the destination; the byte count written is the length
of the returned list. -/
def fpconv_dtoa (bits : Nat) : Option (List Nat) :=
  (grisu2 bits).map (fun dk => emit_digits dk.1 dk.2)

/-- IEEE-754 bit pattern of `1e7_f64` (`1e7 = (1e7 * 2^29) * 2^(-29)`). -/
def bits1e7 : Nat := 1046 * 2 ^ 52 + (10000000 * 2 ^ 29 - 2 ^ 52)

/-- IEEE-754 bit pattern of `1e8_f64` (`1e8 = (1e8 * 2^26) * 2^(-26)`). -/
def bits1e8 : Nat := 1049 * 2 ^ 52 + (100000000 * 2 ^ 26 - 2 ^ 52)

/-- Decimal digits of a natural number, most significant first (empty for 0).
Fuel-based so that it evaluates by kernel reduction; `n` itself is always
enough fuel. -/
def digitsOfAux : Nat → Nat → List Nat
  | 0, _ => []
  | _fuel + 1, 0 => []
  | fuel + 1, n + 1 => digitsOfAux fuel ((n + 1) / 10) ++ [(n + 1) % 10]

/-- Decimal digits of a natural number, most significant first (empty for 0). -/
def digitsOf (n : Nat) : List Nat := digitsOfAux n n

/-- ASCII decimal digits of a natural number, most significant first. -/
def asciiDigits (n : Nat) : List Nat := (digitsOf n).map (· + 48)

/-- Modelled from the spec (§1: the out-of-scope table-driven integer
formatter behind `WriteInteger::write_mantissa`): the ASCII decimal digits of
an unsigned value, `"0"` for zero. -/
def write_mantissa (n : Nat) : List Nat := if n = 0 then [48] else asciiDigits n

/-- `unsigned` of `lexical-write-integer/src/api.rs`: optional required `'+'`
sign, then the mantissa digits.  The buffer is embedded as the byte list
written; the source's returned length is the length of this list. -/
def unsigned (required_mantissa_sign : Bool) (n : Nat) : List Nat :=
  if required_mantissa_sign then 43 :: write_mantissa n else write_mantissa n

/-- `signed` of `lexical-write-integer/src/api.rs`: `'-'` then the digits of
`value.unsigned_abs()` for negatives, else an optional required `'+'` and the
digits.  The buffer is embedded as the byte list written. -/
def signed (required_mantissa_sign : Bool) (v : Int) : List Nat :=
  if v < 0 then 45 :: write_mantissa v.natAbs
  else if required_mantissa_sign then 43 :: write_mantissa v.natAbs
  else write_mantissa v.natAbs

/-- The suffix of `TENS` holding the last `m` entries (`[10^(m-1), …, 1]`),
in a form suitable for induction; `TENS.drop 10 = tensSuffix 10`. -/
def tensSuffix : Nat → List Nat
  | 0 => []
  | m + 1 => 10 ^ m :: tensSuffix m

/-- The powers of ten the fractional-loop `unit` pointer reads after `j`
completed iterations; `unitsFrom 0 = (TENS.take 19).reverse`. -/
def unitsFrom (j : Nat) : List Nat :=
  (List.range (19 - j)).map (fun t => 10 ^ (j + 1 + t))

/-! ## Helper lemmas about the wrapped arithmetic and the loops -/

theorem wadd_eq {a b : Nat} (h : a + b < 2 ^ 64) : wadd a b = a + b :=
  Nat.mod_eq_of_lt h

theorem wsub_eq {a b : Nat} (hb : b ≤ a) (ha : a < 2 ^ 64) : wsub a b = a - b := by
  unfold wsub
  rw [show a + 2 ^ 64 - b = (a - b) + 2 ^ 64 from by omega, Nat.add_mod_right,
    Nat.mod_eq_of_lt (by omega)]

theorem wmul_eq {a b : Nat} (h : a * b < 2 ^ 64) : wmul a b = a * b :=
  Nat.mod_eq_of_lt h

theorem wshl_eq {a s : Nat} (h : a * 2 ^ s < 2 ^ 64) : wshl a s = a * 2 ^ s := by
  unfold wshl
  rw [Nat.shiftLeft_eq, Nat.mod_eq_of_lt h]

theorem decLast_append_last (ds : List Nat) (b : Nat) :
    decLast (ds ++ [b]) = ds ++ [(b + 255) % 256] := by
  induction ds with
  | nil => rfl
  | cons a ds ih =>
    cases ds with
    | nil => rfl
    | cons a' ds' =>
      simp only [List.cons_append] at ih ⊢
      rw [decLast, ih]

/-- Behaviour of `round_digit` under the loop invariant `frac ≤ rem + d·kappa`
(the value with the last digit zeroed is at most `frac` away): the loop
terminates within the fuel, decrements the last digit at most `d` times, and
in particular never takes an ASCII digit byte below `'0'`. -/
theorem round_digit_spec : ∀ (fuel : Nat) (ds : List Nat) (delta kappa frac rem d : Nat),
    d ≤ 9 → d + 1 ≤ fuel → frac ≤ rem + d * kappa → rem + d * kappa < 2 ^ 64 →
    ∃ c, c ≤ d ∧
      round_digit fuel (ds ++ [48 + d]) delta rem kappa frac =
        some (ds ++ [48 + (d - c)]) := by
  intro fuel
  induction fuel with
  | zero => intro _ _ _ _ _ _ _ hfuel _ _; omega
  | succ f ih =>
    intro ds delta kappa frac rem d hd hfuel hinv hlt
    rw [round_digit]
    by_cases hcond : rem < frac ∧ kappa ≤ wsub delta rem ∧
        (wadd rem kappa < frac ∨ wsub frac rem > wsub (wadd rem kappa) frac)
    · rw [if_pos hcond]
      have hd1 : 1 ≤ d := by
        rcases Nat.eq_zero_or_pos d with h0 | h1
        · subst h0
          simp only [Nat.zero_mul, Nat.add_zero] at hinv
          omega
        · exact h1
      have hkd : kappa ≤ d * kappa := Nat.le_mul_of_pos_left kappa hd1
      have hsplit : (d - 1) * kappa = d * kappa - kappa := Nat.sub_one_mul d kappa
      have hbyte : decLast (ds ++ [48 + d]) = ds ++ [48 + (d - 1)] := by
        rw [decLast_append_last,
          show (48 + d + 255) % 256 = 48 + (d - 1) from by omega]
      have hwadd : wadd rem kappa = rem + kappa := wadd_eq (by omega)
      rw [hbyte, hwadd]
      obtain ⟨c, hc, heq⟩ := ih ds delta kappa frac (rem + kappa) (d - 1)
        (by omega) (by omega) (by omega) (by omega)
      exact ⟨c + 1, by omega, by
        rw [heq, show d - 1 - c = d - (c + 1) from by omega]⟩
    · rw [if_neg hcond]
      exact ⟨0, Nat.zero_le _, by rw [Nat.sub_zero]⟩

theorem digitsOfAux_zero : ∀ fuel, digitsOfAux fuel 0 = [] := by
  intro fuel
  cases fuel <;> rfl

theorem digitsOfAux_congr : ∀ (f g n : Nat), n ≤ f → n ≤ g →
    digitsOfAux f n = digitsOfAux g n := by
  intro f
  induction f with
  | zero =>
    intro g n hf _
    have : n = 0 := by omega
    subst this
    rw [digitsOfAux_zero, digitsOfAux_zero]
  | succ f ih =>
    intro g n hf hg
    cases n with
    | zero => rw [digitsOfAux_zero, digitsOfAux_zero]
    | succ m =>
      cases g with
      | zero => omega
      | succ g' =>
        rw [digitsOfAux, digitsOfAux,
          ih g' ((m + 1) / 10) (by omega) (by omega)]

theorem digitsOf_step (n : Nat) (h : n ≠ 0) :
    digitsOf n = digitsOf (n / 10) ++ [n % 10] := by
  cases n with
  | zero => exact absurd rfl h
  | succ m =>
    have h1 : digitsOf (m + 1) = digitsOfAux m ((m + 1) / 10) ++ [(m + 1) % 10] := by
      show digitsOfAux (m + 1) (m + 1) = _
      rw [digitsOfAux]
    rw [h1]
    congr 1
    exact digitsOfAux_congr m ((m + 1) / 10) ((m + 1) / 10) (by omega) (le_refl _)

theorem digitsOf_eq_nil_iff (n : Nat) : digitsOf n = [] ↔ n = 0 := by
  constructor
  · intro h
    by_contra hn
    rw [digitsOf_step n hn] at h
    simp at h
  · intro h
    subst h
    rfl

theorem digitsOf_lt_ten (n : Nat) : ∀ d ∈ digitsOf n, d < 10 := by
  induction n using Nat.strong_induction_on with
  | _ n ih =>
    intro d hd
    rcases Nat.eq_zero_or_pos n with h0 | h1
    · subst h0
      simp [digitsOf, digitsOfAux] at hd
    · rw [digitsOf_step n (by omega)] at hd
      rcases List.mem_append.mp hd with h | h
      · exact ih (n / 10) (Nat.div_lt_self h1 (by omega)) d h
      · simp only [List.mem_singleton] at h
        subst h
        exact Nat.mod_lt _ (by omega)

theorem digitsOf_length_le (n t : Nat) (h : n < 10 ^ t) :
    (digitsOf n).length ≤ t := by
  induction t generalizing n with
  | zero =>
    have : n = 0 := by simpa using h
    subst this
    simp [digitsOf, digitsOfAux]
  | succ t ih =>
    rcases Nat.eq_zero_or_pos n with h0 | h1
    · subst h0
      simp [digitsOf, digitsOfAux]
    · rw [digitsOf_step n (by omega)]
      simp only [List.length_append, List.length_cons, List.length_nil]
      have := ih (n / 10) (by
        rw [Nat.div_lt_iff_lt_mul (by omega : (0:Nat) < 10)]
        calc n < 10 ^ (t + 1) := h
          _ = 10 ^ t * 10 := by ring)
      omega

theorem digitsOf_length_pos (n : Nat) (h : 1 ≤ n) :
    1 ≤ (digitsOf n).length := by
  rw [digitsOf_step n (by omega)]
  simp

theorem pow_ten_length_le (n : Nat) (h : 1 ≤ n) :
    10 ^ ((digitsOf n).length - 1) ≤ n := by
  induction n using Nat.strong_induction_on with
  | _ n ih =>
    rw [digitsOf_step n (by omega)]
    simp only [List.length_append, List.length_cons, List.length_nil]
    rcases Nat.lt_or_ge n 10 with hsmall | hbig
    · have : n / 10 = 0 := by omega
      rw [this]
      simp [digitsOf, digitsOfAux]
      omega
    · have h10 : 1 ≤ n / 10 := by omega
      have hlt : n / 10 < n := Nat.div_lt_self (by omega) (by omega)
      have := ih (n / 10) hlt h10
      have hpos := digitsOf_length_pos (n / 10) h10
      calc 10 ^ ((digitsOf (n / 10)).length + 1 - 1)
          = 10 ^ ((digitsOf (n / 10)).length - 1) * 10 := by
            rw [← Nat.pow_succ]
            congr 1
            omega
        _ ≤ n / 10 * 10 := by omega
        _ ≤ n := by omega

theorem asciiDigits_range (n : Nat) : ∀ b ∈ asciiDigits n, 48 ≤ b ∧ b ≤ 57 := by
  intro b hb
  obtain ⟨d, hd, rfl⟩ := List.mem_map.mp hb
  have := digitsOf_lt_ten n d hd
  omega

theorem asciiDigits_split (q : Nat) (hq : q ≠ 0) :
    asciiDigits q = asciiDigits (q / 10) ++ [48 + q % 10] := by
  unfold asciiDigits
  rw [digitsOf_step q hq, List.map_append]
  simp [Nat.add_comm]

theorem asciiDigits_eq_nil_iff (n : Nat) : asciiDigits n = [] ↔ n = 0 := by
  unfold asciiDigits
  rw [List.map_eq_nil]
  exact digitsOf_eq_nil_iff n

theorem asciiDigits_step (A d : Nat) (hd : d < 10) :
    (if d ≠ 0 ∨ asciiDigits A ≠ [] then
      asciiDigits A ++ [(d % 256 + 48) % 256] else asciiDigits A) =
    asciiDigits (10 * A + d) := by
  have hbyte : (d % 256 + 48) % 256 = 48 + d := by omega
  by_cases hz : 10 * A + d = 0
  · have hA : A = 0 := by omega
    have hd0 : d = 0 := by omega
    subst hA hd0
    rw [if_neg (by simp [asciiDigits, digitsOf, digitsOfAux])]
  · rw [if_pos (by
      rcases Nat.eq_zero_or_pos d with h0 | h1
      · right
        rw [Ne, asciiDigits_eq_nil_iff]
        omega
      · left; omega),
      asciiDigits_split (10 * A + d) hz, hbyte,
      show (10 * A + d) / 10 = A from by omega,
      show (10 * A + d) % 10 = d from by omega]

theorem tensSuffix_length (m : Nat) : (tensSuffix m).length = m := by
  induction m with
  | zero => rfl
  | succ m ih => simp [tensSuffix, ih]

theorem TENS_drop_ten : TENS.drop 10 = tensSuffix 10 := by decide

theorem top_digits_div (A P m : Nat) :
    (A * 10 ^ (m + 1) + P) / 10 ^ m = 10 * A + P / 10 ^ m := by
  rw [pow_succ, show A * (10 ^ m * 10) + P = 10 ^ m * (10 * A) + P from by ring,
    Nat.mul_add_div (Nat.pos_pow_of_pos m (by omega))]

/-- One unfolding step of the integer-part loop, with the wrapped arithmetic
made exact: dividing by `10^m` emits the next decimal digit of the running
prefix, the remainder becomes `P % 10^m`, and the stop test compares
`(P % 10^m) * 2^s + part2` with `delta`. -/
theorem intLoop_step (s wfrac delta part2 oneF : Nat) (k : Int)
    (m A P : Nat) (hP : P < 10 ^ (m + 1)) (hnw : P * 2 ^ s + part2 < 2 ^ 64) :
    intLoop s wfrac delta part2 oneF k (tensSuffix (m + 1)) P (asciiDigits A) =
      if P % 10 ^ m * 2 ^ s + part2 ≤ delta then
        (round_digit 64 (asciiDigits (10 * A + P / 10 ^ m)) delta
          (P % 10 ^ m * 2 ^ s + part2) (wshl (10 ^ m) s) wfrac).map
          (fun ds => (ds, k + (m : Int)))
      else
        intLoop s wfrac delta part2 oneF k (tensSuffix m) (P % 10 ^ m)
          (asciiDigits (10 * A + P / 10 ^ m)) := by
  have hdig : P / 10 ^ m < 10 := by
    rw [Nat.div_lt_iff_lt_mul (Nat.pos_pow_of_pos m (by omega))]
    rw [pow_succ] at hP
    omega
  have hmod : P - P / 10 ^ m * 10 ^ m = P % 10 ^ m := by
    have h1 := Nat.div_add_mod P (10 ^ m)
    have h2 : P / 10 ^ m * 10 ^ m = 10 ^ m * (P / 10 ^ m) := Nat.mul_comm _ _
    omega
  have hmle : P % 10 ^ m * 2 ^ s ≤ P * 2 ^ s :=
    Nat.mul_le_mul_right _ (Nat.mod_le _ _)
  have hshl : wshl (P % 10 ^ m) s = P % 10 ^ m * 2 ^ s := wshl_eq (by omega)
  rw [show tensSuffix (m + 1) = 10 ^ m :: tensSuffix m from rfl]
  rw [intLoop]
  simp only [hmod, hshl, asciiDigits_step A (P / 10 ^ m) hdig,
    wadd_eq (show P % 10 ^ m * 2 ^ s + part2 < 2 ^ 64 from by omega),
    tensSuffix_length]

/-- Characterization of the integer-part loop of `generate_digits`: starting
with `m` divisors, an emitted prefix `A` and remainder `P < 10^m`, either some
step `i` is the first whose stop test passes — then the result is `round_digit`
applied to the most-significant-first decimal digits accumulated so far, with
`kappa = m-1-i` added to `k` — or every stop test fails and the fractional
loop takes over with all digits of `A * 10^m + P` emitted. -/
theorem intLoop_char (s wfrac delta part2 oneF : Nat) (k : Int) :
    ∀ (m : Nat), ∀ (A P : Nat), P < 10 ^ m → P * 2 ^ s + part2 < 2 ^ 64 →
    ((∀ j, j < m → delta < P % 10 ^ (m - 1 - j) * 2 ^ s + part2) →
      intLoop s wfrac delta part2 oneF k (tensSuffix m) P (asciiDigits A) =
        fracLoop s wfrac oneF k ((TENS.take 19).reverse) part2 delta 0
          (asciiDigits (A * 10 ^ m + P))) ∧
    (∀ i, i < m → (∀ j, j < i → delta < P % 10 ^ (m - 1 - j) * 2 ^ s + part2) →
      P % 10 ^ (m - 1 - i) * 2 ^ s + part2 ≤ delta →
      intLoop s wfrac delta part2 oneF k (tensSuffix m) P (asciiDigits A) =
        (round_digit 64 (asciiDigits ((A * 10 ^ m + P) / 10 ^ (m - 1 - i))) delta
          (P % 10 ^ (m - 1 - i) * 2 ^ s + part2) (wshl (10 ^ (m - 1 - i)) s) wfrac).map
          (fun ds => (ds, k + ((m - 1 - i : Nat) : Int)))) := by
  intro m
  induction m with
  | zero =>
    intro A P hP _
    constructor
    · intro _
      have hP0 : P = 0 := by omega
      subst hP0
      rw [show A * 10 ^ 0 + 0 = A from by ring]
      rfl
    · intro i hi
      omega
  | succ m ih =>
    intro A P hP hnw
    have hstep := intLoop_step s wfrac delta part2 oneF k m A P hP hnw
    have hPm : P % 10 ^ m < 10 ^ m := Nat.mod_lt _ (Nat.pos_pow_of_pos m (by omega))
    have hnw' : P % 10 ^ m * 2 ^ s + part2 < 2 ^ 64 := by
      have : P % 10 ^ m * 2 ^ s ≤ P * 2 ^ s :=
        Nat.mul_le_mul_right _ (Nat.mod_le _ _)
      omega
    have hA' : (10 * A + P / 10 ^ m) * 10 ^ m + P % 10 ^ m = A * 10 ^ (m + 1) + P := by
      have := Nat.div_add_mod P (10 ^ m)
      have hps : 10 ^ (m + 1) = 10 ^ m * 10 := by rw [pow_succ]
      nlinarith [Nat.div_add_mod P (10 ^ m)]
    have hmodmod : ∀ t, t ≤ m → P % 10 ^ m % 10 ^ t = P % 10 ^ t := by
      intro t ht
      exact Nat.mod_mod_of_dvd P (Nat.pow_dvd_pow 10 ht)
    by_cases hstop0 : P % 10 ^ m * 2 ^ s + part2 ≤ delta
    · rw [if_pos hstop0] at hstep
      constructor
      · intro hall
        have := hall 0 (by omega)
        rw [show m + 1 - 1 - 0 = m from by omega] at this
        omega
      · intro i hi hprev hstop
        cases i with
        | zero =>
          rw [show m + 1 - 1 - 0 = m from by omega] at hstop ⊢
          rw [hstep, top_digits_div]
        | succ i' =>
          have := hprev 0 (by omega)
          rw [show m + 1 - 1 - 0 = m from by omega] at this
          omega
    · rw [if_neg hstop0] at hstep
      obtain ⟨ih1, ih2⟩ := ih (10 * A + P / 10 ^ m) (P % 10 ^ m) hPm hnw'
      constructor
      · intro hall
        rw [hstep]
        rw [hA'] at ih1
        apply ih1
        intro j hj
        have h1 := hall (j + 1) (by omega)
        rw [show m + 1 - 1 - (j + 1) = m - 1 - j from by omega] at h1
        rw [hmodmod (m - 1 - j) (by omega)]
        exact h1
      · intro i hi hprev hstop
        cases i with
        | zero =>
          rw [show m + 1 - 1 - 0 = m from by omega] at hstop
          omega
        | succ i' =>
          have hprev' : ∀ j, j < i' →
              delta < P % 10 ^ m % 10 ^ (m - 1 - j) * 2 ^ s + part2 := by
            intro j hj
            have h1 := hprev (j + 1) (by omega)
            rw [show m + 1 - 1 - (j + 1) = m - 1 - j from by omega] at h1
            rw [hmodmod (m - 1 - j) (by omega)]
            exact h1
          have hstop' : P % 10 ^ m % 10 ^ (m - 1 - i') * 2 ^ s + part2 ≤ delta := by
            rw [show m + 1 - 1 - (i' + 1) = m - 1 - i' from by omega] at hstop
            rw [hmodmod (m - 1 - i') (by omega)]
            exact hstop
          have h2 := ih2 i' (by omega) hprev' hstop'
          rw [hA', hmodmod (m - 1 - i') (by omega)] at h2
          rw [hstep, h2, show m + 1 - 1 - (i' + 1) = m - 1 - i' from by omega]

theorem unitsFrom_cons (j : Nat) (h : j < 19) :
    unitsFrom j = 10 ^ (j + 1) :: unitsFrom (j + 1) := by
  unfold unitsFrom
  rw [show 19 - j = (19 - (j + 1)) + 1 from by omega, List.range_succ_eq_map]
  simp only [List.map_cons, List.map_map, Nat.add_zero]
  congr 1
  apply List.map_congr_left
  intro a _
  simp only [Function.comp_apply]
  congr 1
  omega

theorem unitsFrom_zero : (TENS.take 19).reverse = unitsFrom 0 := by decide

/-- Soundness of the fractional-part loop: starting after `j` completed
iterations with the entry invariants (`delta = d0 * 10^j` exactly, loop was
entered because `delta ≤ part2`, `wfrac ≤ d0`, digits nonempty and in ASCII
range), the loop exits within the remaining `19 - j` table entries via
`round_digit`, all produced bytes are ASCII digits, and the number `e` of
extra digits satisfies `d0 * 10^(j+e-1) < 2^s` whenever `e ≥ 2`. -/
theorem fracLoop_go (s wfrac oneF : Nat) (k : Int) (d0 : Nat) :
    ∀ (r j : Nat), j + r = 19 →
    ∀ (part2 delta : Nat) (kappa : Int) (digits : List Nat),
    s ≤ 60 → oneF = 2 ^ s → part2 < 2 ^ s → delta = d0 * 10 ^ j → 1 ≤ d0 →
    delta ≤ part2 → wfrac ≤ d0 → digits ≠ [] →
    (∀ b ∈ digits, 48 ≤ b ∧ b ≤ 57) →
    ∃ ds k' e, fracLoop s wfrac oneF k (unitsFrom j) part2 delta kappa digits =
        some (ds, k') ∧
      ds ≠ [] ∧ (∀ b ∈ ds, 48 ≤ b ∧ b ≤ 57) ∧ 1 ≤ e ∧
      ds.length = digits.length + e ∧ (2 ≤ e → d0 * 10 ^ (j + e - 1) < 2 ^ s) := by
  intro r
  induction r with
  | zero =>
    intro j hj part2 delta kappa digits hs _ hp2 hδ hd0 hentry _ _ _
    exfalso
    have hj19 : j = 19 := by omega
    subst hj19
    have h1 : (2 : Nat) ^ s ≤ 2 ^ 60 := Nat.pow_le_pow_right (by omega) hs
    have h2 : (10 : Nat) ^ 19 ≤ d0 * 10 ^ 19 := Nat.le_mul_of_pos_left _ (by omega)
    have h3 : (2 : Nat) ^ 60 < 10 ^ 19 := by norm_num
    omega
  | succ r ih =>
    intro j hj part2 delta kappa digits hs honeF hp2 hδ hd0 hentry hwf hne hrange
    subst honeF
    have h2s60 : (2 : Nat) ^ s ≤ 2 ^ 60 := Nat.pow_le_pow_right (by omega) hs
    have hp2' : wmul part2 10 = part2 * 10 := wmul_eq (by omega)
    have hδ10 : wmul delta 10 = delta * 10 := wmul_eq (by omega)
    have hdig9 : part2 * 10 / 2 ^ s < 10 := by
      rw [Nat.div_lt_iff_lt_mul (Nat.pos_pow_of_pos s (by omega))]
      omega
    have hdam : part2 * 10 % 2 ^ s + part2 * 10 / 2 ^ s * 2 ^ s = part2 * 10 := by
      have h1 := Nat.div_add_mod (part2 * 10) (2 ^ s)
      have h2 : part2 * 10 / 2 ^ s * 2 ^ s = 2 ^ s * (part2 * 10 / 2 ^ s) :=
        Nat.mul_comm _ _
      omega
    have hδ'eq : delta * 10 = d0 * 10 ^ (j + 1) := by
      rw [hδ, pow_succ]; ring
    have hbyteGen : ∀ D : Nat, D < 10 → (D % 256 + 48) % 256 = 48 + D := by
      intro D hD
      omega
    rw [unitsFrom_cons j (by omega), fracLoop]
    simp only [hp2', hδ10, Nat.and_pow_two_sub_one_eq_mod,
      Nat.shiftRight_eq_div_pow, if_pos (Or.inr hne)]
    rw [hbyteGen _ hdig9]
    by_cases hexit : part2 * 10 % 2 ^ s < delta * 10
    · rw [if_pos hexit]
      have hwfrac10 : wmul wfrac (10 ^ (j + 1)) = wfrac * 10 ^ (j + 1) := by
        apply wmul_eq
        have h1 : wfrac * 10 ^ (j + 1) ≤ d0 * 10 ^ (j + 1) :=
          Nat.mul_le_mul_right _ hwf
        omega
      rw [hwfrac10]
      obtain ⟨c, hc, hround⟩ := round_digit_spec 64 digits (delta * 10) (2 ^ s)
        (wfrac * 10 ^ (j + 1)) (part2 * 10 % 2 ^ s) (part2 * 10 / 2 ^ s)
        (by omega) (by omega)
        (by
          have h1 : wfrac * 10 ^ (j + 1) ≤ d0 * 10 ^ (j + 1) :=
            Nat.mul_le_mul_right _ hwf
          omega)
        (by omega)
      rw [hround]
      have hD9 : part2 * 10 / 2 ^ s ≤ 9 := Nat.lt_succ_iff.mp hdig9
      refine ⟨digits ++ [48 + (part2 * 10 / 2 ^ s - c)], k + (kappa - 1), 1,
        rfl, by simp, ?_, by omega, by simp, by omega⟩
      intro b hb
      rcases List.mem_append.mp hb with h | h
      · exact hrange b h
      · rw [List.mem_singleton] at h
        subst h
        refine ⟨Nat.le_add_right _ _, ?_⟩
        have hsub : part2 * 10 / 2 ^ s - c ≤ 9 :=
          le_trans (Nat.sub_le _ _) hD9
        omega
    · rw [if_neg hexit]
      have hD9 : part2 * 10 / 2 ^ s ≤ 9 := Nat.lt_succ_iff.mp hdig9
      obtain ⟨ds, k', e', hloop, hne', hrange', he1, hlen, hbound⟩ :=
        ih (j + 1) (by omega) (part2 * 10 % 2 ^ s) (delta * 10) (kappa - 1)
          (digits ++ [48 + part2 * 10 / 2 ^ s])
          hs rfl (Nat.mod_lt _ (Nat.pos_pow_of_pos s (by omega))) hδ'eq hd0
          (Nat.le_of_not_lt hexit) hwf (by simp)
          (by
            intro b hb
            rcases List.mem_append.mp hb with h | h
            · exact hrange b h
            · rw [List.mem_singleton] at h
              subst h
              exact ⟨Nat.le_add_right _ _, by omega⟩)
      refine ⟨ds, k', e' + 1, hloop, hne', hrange', by omega, ?_, ?_⟩
      · rw [hlen]
        simp only [List.length_append, List.length_cons, List.length_nil]
        omega
      · intro _
        rw [show j + (e' + 1) - 1 = (j + 1) + e' - 1 from by omega]
        rcases Nat.lt_or_ge e' 2 with he'2 | he'2
        · have he'1 : e' = 1 := by omega
          subst he'1
          rw [show j + 1 + 1 - 1 = j + 1 from by omega, ← hδ'eq]
          omega
        · exact hbound he'2

/-- Unfolding of `generate_digits` into the integer-part loop with the wrapped
arithmetic made exact (the scaled state has `upper.exp = -s` and all mantissas
below `2^64`). -/
theorem generate_digits_eq (fp upper lower : FloatType) (k : Int) (s : Nat)
    (hse : upper.exp = -(s : Int)) (hs : s ≤ 60)
    (hu : upper.frac < 2 ^ 64) (hfu : fp.frac ≤ upper.frac)
    (hlu : lower.frac ≤ upper.frac) :
    generate_digits fp upper lower k =
      intLoop s (upper.frac - fp.frac) (upper.frac - lower.frac)
        (upper.frac % 2 ^ s) (2 ^ s) k (tensSuffix 10) (upper.frac / 2 ^ s)
        (asciiDigits 0) := by
  have honeF : wshl 1 s = 2 ^ s := by
    unfold wshl
    rw [Nat.shiftLeft_eq, one_mul,
      Nat.mod_eq_of_lt (Nat.pow_lt_pow_right (by omega) (by omega))]
  simp only [generate_digits, hse, neg_neg, Int.toNat_natCast, honeF,
    wsub_eq hfu hu, wsub_eq hlu hu, Nat.shiftRight_eq_div_pow,
    Nat.and_pow_two_sub_one_eq_mod, TENS_drop_ten]
  rfl

/-- Soundness of `generate_digits` on a well-formed scaled state (the shape
`grisu2` establishes: `upper.exp = -s` in the cached-power window,
`2^62 ≤ upper.frac < 2^64`, and `1 ≤ lower.frac ≤ fp.frac ≤ upper.frac` with
`lower < upper`): digit generation terminates with a nonempty all-ASCII-digit
buffer, and when `delta ≥ 256` (as after scaling a half-ulp interval) at most
18 digits are produced. -/
theorem generate_digits_sound (fp upper lower : FloatType) (k : Int) (s : Nat)
    (hse : upper.exp = -(s : Int)) (h32 : 32 ≤ s) (h60 : s ≤ 60)
    (hu64 : upper.frac < 2 ^ 64) (hu62 : 2 ^ 61 ≤ upper.frac)
    (hl1 : 1 ≤ lower.frac) (hlf : lower.frac ≤ fp.frac)
    (hfu : fp.frac ≤ upper.frac) (hlu : lower.frac < upper.frac) :
    ∃ ds k', generate_digits fp upper lower k = some (ds, k') ∧
      ds ≠ [] ∧ (∀ b ∈ ds, 48 ≤ b ∧ b ≤ 57) ∧
      (256 ≤ upper.frac - lower.frac → ds.length ≤ 18) := by
  have hgeq := generate_digits_eq fp upper lower k s hse h60 hu64 hfu
    (le_of_lt hlu)
  set U := upper.frac with hU
  set F := fp.frac with hF
  set L := lower.frac with hL
  set p0 := U / 2 ^ s with hp0
  set p2 := U % 2 ^ s with hp2
  set wfrac := U - F with hwfrac
  set delta := U - L with hdelta
  have hUsum : 2 ^ s * p0 + p2 = U := Nat.div_add_mod U (2 ^ s)
  have hUsum' : p0 * 2 ^ s + p2 = U := by rw [Nat.mul_comm p0 (2 ^ s)]; exact hUsum
  have hp2lt : p2 < 2 ^ s := Nat.mod_lt _ (Nat.pos_pow_of_pos s (by omega))
  have hp0lt : p0 < 2 ^ (64 - s) := by
    rw [hp0, Nat.div_lt_iff_lt_mul (Nat.pos_pow_of_pos s (by omega)),
      ← pow_add]
    rw [show 64 - s + s = 64 from by omega]
    exact hu64
  have hp010 : p0 < 10 ^ 10 := by
    have h1 : (2 : Nat) ^ (64 - s) ≤ 2 ^ 32 := Nat.pow_le_pow_right (by omega) (by omega)
    have h2 : (2 : Nat) ^ 32 < 10 ^ 10 := by norm_num
    omega
  have hnw : p0 * 2 ^ s + p2 < 2 ^ 64 := by omega
  have hp0pos : 1 ≤ p0 := by
    have h1 : U / 2 ^ 60 ≤ U / 2 ^ s :=
      Nat.div_le_div_left (Nat.pow_le_pow_right (by omega) h60)
        (Nat.pos_pow_of_pos s (by omega))
    have h2 : (2 : Nat) ^ 61 / 2 ^ 60 ≤ U / 2 ^ 60 :=
      Nat.div_le_div_right hu62
    have h3 : (2 : Nat) ^ 61 / 2 ^ 60 = 2 := by norm_num
    omega
  obtain ⟨hchar1, hchar2⟩ := intLoop_char s wfrac delta p2 (2 ^ s) k 10 0 p0
    hp010 hnw
  by_cases hex : ∃ i, i < 10 ∧ p0 % 10 ^ (10 - 1 - i) * 2 ^ s + p2 ≤ delta
  · -- the integer-part loop stops at the least such index
    classical
    set i0 := Nat.find hex with hi0
    obtain ⟨hi0lt, hstop⟩ := Nat.find_spec hex
    have hleast : ∀ j, j < i0 → delta < p0 % 10 ^ (10 - 1 - j) * 2 ^ s + p2 := by
      intro j hj
      have := Nat.find_min hex hj
      rw [not_and] at this
      exact Nat.lt_of_not_le (this (by omega))
    have heq := hchar2 i0 hi0lt hleast hstop
    set t := 10 - 1 - i0 with ht
    set q := (0 * 10 ^ 10 + p0) / 10 ^ t with hq
    have hq' : q = p0 / 10 ^ t := by rw [hq]; ring_nf
    have hqpos : 1 ≤ q := by
      rw [hq', Nat.one_le_div_iff (Nat.pos_pow_of_pos t (by omega))]
      by_contra hcon
      have hmod : p0 % 10 ^ t = p0 := Nat.mod_eq_of_lt (by omega)
      rw [hmod] at hstop
      omega
    have h10t : 10 ^ t ≤ p0 := by
      rw [hq', Nat.one_le_div_iff (Nat.pos_pow_of_pos t (by omega))] at hqpos
      exact hqpos
    have hkexact : wshl (10 ^ t) s = 10 ^ t * 2 ^ s := by
      apply wshl_eq
      have : 10 ^ t * 2 ^ s ≤ p0 * 2 ^ s := Nat.mul_le_mul_right _ h10t
      omega
    have hmodmul : p0 % 10 ^ t + 10 ^ t * (p0 / 10 ^ t % 10) = p0 % 10 ^ (t + 1) := by
      rw [pow_succ, Nat.mod_mul]
    have hmodle : p0 % 10 ^ (t + 1) ≤ p0 := Nat.mod_le _ _
    have hre : p0 % 10 ^ t * 2 ^ s + p2 + q % 10 * (10 ^ t * 2 ^ s) =
        p0 % 10 ^ (t + 1) * 2 ^ s + p2 := by
      rw [hq']
      calc p0 % 10 ^ t * 2 ^ s + p2 + p0 / 10 ^ t % 10 * (10 ^ t * 2 ^ s)
          = (p0 % 10 ^ t + 10 ^ t * (p0 / 10 ^ t % 10)) * 2 ^ s + p2 := by ring
        _ = p0 % 10 ^ (t + 1) * 2 ^ s + p2 := by rw [hmodmul]
    have hinv : wfrac ≤ p0 % 10 ^ t * 2 ^ s + p2 + q % 10 * (10 ^ t * 2 ^ s) := by
      rw [hre]
      rcases Nat.eq_zero_or_pos i0 with hi00 | hi0pos
      · have ht9 : t = 9 := by omega
        have hmp : p0 % 10 ^ (t + 1) = p0 := by
          apply Nat.mod_eq_of_lt
          rw [ht9]
          exact hp010
        rw [hmp]
        omega
      · have hprev := hleast (i0 - 1) (by omega)
        have htt : 10 - 1 - (i0 - 1) = t + 1 := by omega
        rw [htt] at hprev
        omega
    have hnw2 : p0 % 10 ^ t * 2 ^ s + p2 + q % 10 * (10 ^ t * 2 ^ s) < 2 ^ 64 := by
      rw [hre]
      have : p0 % 10 ^ (t + 1) * 2 ^ s ≤ p0 * 2 ^ s :=
        Nat.mul_le_mul_right _ hmodle
      omega
    obtain ⟨c, hc, hround⟩ := round_digit_spec 64 (asciiDigits (q / 10)) delta
      (10 ^ t * 2 ^ s) wfrac (p0 % 10 ^ t * 2 ^ s + p2) (q % 10)
      (Nat.lt_succ_iff.mp (Nat.mod_lt _ (by omega))) (by omega) hinv hnw2
    rw [hgeq, heq, hkexact, asciiDigits_split q (by omega), hround]
    refine ⟨asciiDigits (q / 10) ++ [48 + (q % 10 - c)], k + ((t : Nat) : Int),
      rfl, by simp, ?_, ?_⟩
    · intro b hb
      rcases List.mem_append.mp hb with h | h
      · exact asciiDigits_range _ b h
      · rw [List.mem_singleton] at h
        subst h
        have h9 : q % 10 ≤ 9 := Nat.lt_succ_iff.mp (Nat.mod_lt _ (by omega))
        have hsub : q % 10 - c ≤ 9 := le_trans (Nat.sub_le _ _) h9
        exact ⟨Nat.le_add_right _ _, by omega⟩
    · intro _
      have hlen1 : (asciiDigits (q / 10)).length = (digitsOf (q / 10)).length :=
        List.length_map _ _
      have hlen2 : (digitsOf (q / 10)).length ≤ 9 := by
        apply digitsOf_length_le
        have hqle : q ≤ p0 := by rw [hq']; exact Nat.div_le_self _ _
        have : q / 10 < 10 ^ 9 := by
          rw [Nat.div_lt_iff_lt_mul (by omega)]
          have : (10 : Nat) ^ 10 = 10 ^ 9 * 10 := by norm_num
          omega
        exact this
      simp only [List.length_append, List.length_cons, List.length_nil, hlen1]
      omega
  · -- no integer-part stop: the fractional loop finishes the job
    push_neg at hex
    have hall : ∀ j, j < 10 → delta < p0 % 10 ^ (10 - 1 - j) * 2 ^ s + p2 := by
      intro j hj
      exact hex j hj
    have heq := hchar1 hall
    rw [show (0 * 10 ^ 10 + p0) = p0 from by ring] at heq
    have hentry : delta < p2 := by
      have h9 := hall 9 (by omega)
      rw [show (10 - 1 - 9 : Nat) = 0 from rfl, pow_zero, Nat.mod_one] at h9
      simpa using h9
    have hδpos : 1 ≤ delta := by omega
    have hwfd : wfrac ≤ delta := by omega
    have hne : asciiDigits p0 ≠ [] := by
      rw [Ne, asciiDigits_eq_nil_iff]
      omega
    obtain ⟨ds, k', e, hloop, hne', hrange', he1, hlen, hbound⟩ :=
      fracLoop_go s wfrac (2 ^ s) k delta 19 0 (by omega) p2 delta 0
        (asciiDigits p0) h60 rfl hp2lt (by rw [pow_zero, Nat.mul_one])
        hδpos (by omega) hwfd hne (asciiDigits_range p0)
    rw [hgeq, heq, unitsFrom_zero]
    refine ⟨ds, k', hloop, hne', hrange', ?_⟩
    intro h256
    have hm0 : (asciiDigits p0).length = (digitsOf p0).length := List.length_map _ _
    set m0 := (digitsOf p0).length with hm0def
    have hm0pos : 1 ≤ m0 := digitsOf_length_pos p0 hp0pos
    have hm0le : m0 ≤ 10 := digitsOf_length_le p0 10 hp010
    rcases Nat.lt_or_ge e 2 with he2 | he2
    · omega
    · have hb := hbound he2
      rw [Nat.zero_add] at hb
      have hApow : (10 : Nat) ^ (m0 - 1) ≤ p0 := pow_ten_length_le p0 hp0pos
      have hBpow : 256 * 10 ^ (e - 1) < 2 ^ s := by
        calc 256 * 10 ^ (e - 1) ≤ delta * 10 ^ (e - 1) :=
              Nat.mul_le_mul_right _ h256
          _ < 2 ^ s := hb
      have hprod : 10 ^ (m0 - 1) * (256 * 10 ^ (e - 1)) < 2 ^ (64 - s) * 2 ^ s := by
        apply Nat.mul_lt_mul_of_le_of_lt (le_trans hApow (le_of_lt hp0lt)) hBpow
        exact Nat.pos_pow_of_pos _ (by omega)
      have hpows : (2 : Nat) ^ (64 - s) * 2 ^ s = 2 ^ 64 := by
        rw [← pow_add]
        congr 1
        omega
      have hcomb : 256 * 10 ^ (m0 + e - 2) < 2 ^ 64 := by
        have h1 : 10 ^ (m0 - 1) * (256 * 10 ^ (e - 1)) =
            256 * (10 ^ (m0 - 1) * 10 ^ (e - 1)) := by ring
        have h2 : (10 : Nat) ^ (m0 - 1) * 10 ^ (e - 1) = 10 ^ (m0 + e - 2) := by
          rw [← pow_add]
          congr 1
          omega
        rw [h1, h2, hpows] at hprod
        exact hprod
      have hX : (10 : Nat) ^ (m0 + e - 2) < 2 ^ 56 := by
        have h256e : (2 : Nat) ^ 64 = 256 * 2 ^ 56 := by norm_num
        omega
      have h17 : (2 : Nat) ^ 56 < 10 ^ 17 := by norm_num
      have hexp : m0 + e - 2 < 17 := by
        by_contra hcon
        have h1 : (10 : Nat) ^ 17 ≤ 10 ^ (m0 + e - 2) :=
          Nat.pow_le_pow_right (by omega) (by omega)
        omega
      omega

/-! ## From valid double bit patterns to well-formed scaled states -/

theorem nlog2Aux_spec : ∀ (fuel n : Nat), 1 ≤ n → n < 2 ^ fuel →
    2 ^ nlog2Aux fuel n ≤ n ∧ n < 2 ^ (nlog2Aux fuel n + 1) := by
  intro fuel
  induction fuel with
  | zero =>
    intro n h1 h2
    norm_num at h2
    omega
  | succ f ih =>
    intro n h1 h2
    rw [nlog2Aux]
    by_cases hn : n ≤ 1
    · rw [if_pos hn]
      norm_num
      omega
    · rw [if_neg hn]
      obtain ⟨ha, hb⟩ := ih (n / 2) (by omega) (by
        rw [pow_succ] at h2
        omega)
      constructor
      · rw [pow_succ]
        omega
      · rw [show nlog2Aux f (n / 2) + 1 + 1 = (nlog2Aux f (n / 2) + 1) + 1 from rfl,
          pow_succ]
        omega

theorem nlog2_spec (n : Nat) (h1 : 1 ≤ n) (h2 : n < 2 ^ 4096) :
    2 ^ nlog2 n ≤ n ∧ n < 2 ^ (nlog2 n + 1) :=
  nlog2Aux_spec 4096 n h1 h2

theorem pow10_lt_pow2_4096 (m : Nat) (h : m ≤ 1023) : (10 : Nat) ^ m < 2 ^ 4096 := by
  calc (10 : Nat) ^ m ≤ 16 ^ m := Nat.pow_le_pow_left (by omega) m
    _ = 2 ^ (4 * m) := by rw [show (16 : Nat) = 2 ^ 4 from rfl, ← pow_mul]
    _ < 2 ^ 4096 := Nat.pow_lt_pow_right (by omega) (by omega)

/-- Bounds for rounding an `(sh+64)`-bit value down to 64 bits with the
rounding bit added, as in the positive-exponent branch of `cachedPow`. -/
theorem roundTo64_bounds (n sh : Nat) (h1 : 2 ^ (sh + 63) ≤ n)
    (h2 : n < 2 ^ (sh + 64)) :
    2 ^ 63 ≤ (2 * n + 2 ^ sh) / (2 * 2 ^ sh) ∧
      (2 * n + 2 ^ sh) / (2 * 2 ^ sh) ≤ 2 ^ 64 := by
  have hpow1 : (2 : Nat) ^ (sh + 63) = 2 ^ sh * 2 ^ 63 := pow_add 2 sh 63
  have hpow2 : (2 : Nat) ^ (sh + 64) = 2 ^ sh * 2 ^ 64 := pow_add 2 sh 64
  constructor
  · rw [Nat.le_div_iff_mul_le (by positivity)]
    calc 2 ^ 63 * (2 * 2 ^ sh) = 2 * (2 ^ sh * 2 ^ 63) := by ring
      _ ≤ 2 * n := by omega
      _ ≤ 2 * n + 2 ^ sh := Nat.le_add_right _ _
  · have : (2 * n + 2 ^ sh) / (2 * 2 ^ sh) < 2 ^ 64 + 1 := by
      rw [Nat.div_lt_iff_lt_mul (by positivity)]
      have h3 : (0 : Nat) < 2 ^ sh := Nat.pos_pow_of_pos _ (by omega)
      calc 2 * n + 2 ^ sh < 2 * (2 ^ sh * 2 ^ 64) + 2 ^ sh := by omega
        _ ≤ (2 ^ 64 + 1) * (2 * 2 ^ sh) := by ring_nf; omega
    omega

/-- Bounds for the reciprocal-power rounding in the negative-exponent branch
of `cachedPow`. -/
theorem invRound_bounds (m L : Nat) (h1 : 2 ^ L ≤ m) (h2 : m < 2 ^ (L + 1)) :
    2 ^ 63 ≤ (2 * 2 ^ (L + 64) + m) / (2 * m) ∧
      (2 * 2 ^ (L + 64) + m) / (2 * m) ≤ 2 ^ 64 := by
  have hm1 : 1 ≤ m := le_trans (Nat.one_le_pow _ _ (by omega)) h1
  have hpow1 : (2 : Nat) ^ (L + 64) = 2 ^ L * 2 ^ 64 := pow_add 2 L 64
  have hpow2 : (2 : Nat) ^ (L + 1) = 2 ^ L * 2 := pow_add 2 L 1
  constructor
  · rw [Nat.le_div_iff_mul_le (by omega)]
    have h3 : (2 : Nat) ^ 63 * (2 * m) = 2 ^ 64 * m := by
      rw [show (2 : Nat) ^ 64 = 2 ^ 63 * 2 from by norm_num]
      ring
    have h4 : (2 : Nat) ^ 64 * m < 2 ^ 64 * (2 ^ L * 2) :=
      Nat.mul_lt_mul_of_le_of_lt (le_refl _) (by omega) (by positivity)
    have h5 : (2 : Nat) ^ 64 * (2 ^ L * 2) = 2 * 2 ^ (L + 64) := by
      rw [hpow1]
      ring
    omega
  · have : (2 * 2 ^ (L + 64) + m) / (2 * m) < 2 ^ 64 + 1 := by
      rw [Nat.div_lt_iff_lt_mul (by omega)]
      have h3 : (2 : Nat) * 2 ^ (L + 64) = 2 ^ 65 * 2 ^ L := by
        rw [hpow1, show (2 : Nat) ^ 65 = 2 * 2 ^ 64 from by norm_num]
        ring
      have h4 : (2 : Nat) ^ 65 * 2 ^ L ≤ 2 ^ 65 * m := Nat.mul_le_mul_left _ h1
      have h5 : ((2 : Nat) ^ 64 + 1) * (2 * m) = 2 ^ 65 * m + 2 * m := by
        rw [show (2 : Nat) ^ 65 = 2 ^ 64 * 2 from by norm_num]
        ring
      omega
    omega

/-- The mantissa computed by `cachedPow` is always normalized into
`[2^63, 2^64)`. -/
theorem cachedPow_frac_bounds (q : Int) (hq1 : -1023 ≤ q) (hq2 : q ≤ 1023) :
    2 ^ 63 ≤ (cachedPow q).frac ∧ (cachedPow q).frac < 2 ^ 64 := by
  unfold cachedPow
  by_cases hq : 0 ≤ q
  · rw [if_pos hq]
    have hn1 : 1 ≤ (10 : Nat) ^ q.toNat := Nat.one_le_pow _ _ (by omega)
    have hn2 : (10 : Nat) ^ q.toNat < 2 ^ 4096 :=
      pow10_lt_pow2_4096 q.toNat (by omega)
    obtain ⟨hL1, hL2⟩ := nlog2_spec _ hn1 hn2
    by_cases hL63 : nlog2 (10 ^ q.toNat) ≤ 63
    · rw [if_pos hL63]
      show 2 ^ 63 ≤ 10 ^ q.toNat <<< (63 - nlog2 (10 ^ q.toNat)) ∧
        10 ^ q.toNat <<< (63 - nlog2 (10 ^ q.toNat)) < 2 ^ 64
      rw [Nat.shiftLeft_eq]
      constructor
      · calc (2 : Nat) ^ 63
            = 2 ^ nlog2 (10 ^ q.toNat) * 2 ^ (63 - nlog2 (10 ^ q.toNat)) := by
              rw [← pow_add]
              congr 1
              omega
          _ ≤ 10 ^ q.toNat * 2 ^ (63 - nlog2 (10 ^ q.toNat)) :=
              Nat.mul_le_mul_right _ hL1
      · calc (10 : Nat) ^ q.toNat * 2 ^ (63 - nlog2 (10 ^ q.toNat))
            < 2 ^ (nlog2 (10 ^ q.toNat) + 1) * 2 ^ (63 - nlog2 (10 ^ q.toNat)) :=
              Nat.mul_lt_mul_of_lt_of_le hL2 (le_refl _)
                (Nat.pos_pow_of_pos _ (by omega))
          _ = 2 ^ 64 := by
              rw [← pow_add]
              congr 1
              omega
    · rw [if_neg hL63]
      obtain ⟨hlb, hub⟩ := roundTo64_bounds (10 ^ q.toNat)
        (nlog2 (10 ^ q.toNat) - 63)
        (by rw [show nlog2 (10 ^ q.toNat) - 63 + 63 = nlog2 (10 ^ q.toNat)
          from by omega]; exact hL1)
        (by rw [show nlog2 (10 ^ q.toNat) - 63 + 64 = nlog2 (10 ^ q.toNat) + 1
          from by omega]; exact hL2)
      by_cases hfr : (2 * 10 ^ q.toNat + 2 ^ (nlog2 (10 ^ q.toNat) - 63)) /
          (2 * 2 ^ (nlog2 (10 ^ q.toNat) - 63)) = 2 ^ 64
      · rw [if_pos hfr]
        show (2 : Nat) ^ 63 ≤ 2 ^ 63 ∧ (2 : Nat) ^ 63 < 2 ^ 64
        norm_num
      · rw [if_neg hfr]
        show 2 ^ 63 ≤ (2 * 10 ^ q.toNat + 2 ^ (nlog2 (10 ^ q.toNat) - 63)) /
            (2 * 2 ^ (nlog2 (10 ^ q.toNat) - 63)) ∧
          (2 * 10 ^ q.toNat + 2 ^ (nlog2 (10 ^ q.toNat) - 63)) /
            (2 * 2 ^ (nlog2 (10 ^ q.toNat) - 63)) < 2 ^ 64
        exact ⟨hlb, by omega⟩
  · rw [if_neg hq]
    have hm1 : 1 ≤ (10 : Nat) ^ (-q).toNat := Nat.one_le_pow _ _ (by omega)
    have hm2 : (10 : Nat) ^ (-q).toNat < 2 ^ 4096 :=
      pow10_lt_pow2_4096 (-q).toNat (by omega)
    obtain ⟨hL1, hL2⟩ := nlog2_spec _ hm1 hm2
    obtain ⟨hlb, hub⟩ := invRound_bounds (10 ^ (-q).toNat)
      (nlog2 (10 ^ (-q).toNat)) hL1 hL2
    by_cases hfr : (2 * 2 ^ (nlog2 (10 ^ (-q).toNat) + 64) + 10 ^ (-q).toNat) /
        (2 * 10 ^ (-q).toNat) = 2 ^ 64
    · rw [if_pos hfr]
      show (2 : Nat) ^ 63 ≤ 2 ^ 63 ∧ (2 : Nat) ^ 63 < 2 ^ 64
      norm_num
    · rw [if_neg hfr]
      show 2 ^ 63 ≤ (2 * 2 ^ (nlog2 (10 ^ (-q).toNat) + 64) + 10 ^ (-q).toNat) /
          (2 * 10 ^ (-q).toNat) ∧
        (2 * 2 ^ (nlog2 (10 ^ (-q).toNat) + 64) + 10 ^ (-q).toNat) /
          (2 * 10 ^ (-q).toNat) < 2 ^ 64
      exact ⟨hlb, by omega⟩

set_option maxHeartbeats 8000000 in
/-- Consecutive table entries' binary exponents are nondecreasing and at most
28 apart (checked by evaluation over all 87 entries). -/
theorem cachedPow_exp_adjacent : ∀ i : Nat, i < 86 →
    (cachedPow (-348 + 8 * (i : Int))).exp ≤
      (cachedPow (-348 + 8 * ((i : Int) + 1))).exp ∧
    (cachedPow (-348 + 8 * ((i : Int) + 1))).exp ≤
      (cachedPow (-348 + 8 * (i : Int))).exp + 28 := by
  decide

theorem cachedPow_exp_first : (cachedPow (-348)).exp = -1220 := by decide

theorem cachedPow_exp_last : (cachedPow 340).exp = 1066 := by decide

/-- For every binary exponent a scaled `f64` boundary can have, the cached
power table holds an entry landing the scaled exponent in the target window
`[-60, -32]`, and `cached_grisu_power` returns such an entry together with its
decimal exponent. -/
theorem cached_grisu_power_spec (exp : Int) (hlo : -1190 ≤ exp)
    (hhi : exp ≤ 1124) :
    ∃ q : Int, -348 ≤ q ∧ q ≤ 340 ∧
      cached_grisu_power exp = (cachedPow q, q) ∧
      -60 ≤ exp + (cachedPow q).exp + 64 ∧
      exp + (cachedPow q).exp + 64 ≤ -32 := by
  have hex : ∃ i : Nat, i < 87 ∧
      -60 ≤ exp + (cachedPow (-348 + 8 * (i : Int))).exp + 64 := by
    refine ⟨86, by omega, ?_⟩
    rw [show (-348 + 8 * ((86 : Nat) : Int)) = 340 from by norm_num,
      cachedPow_exp_last]
    omega
  classical
  set i0 := Nat.find hex with hi0def
  obtain ⟨hi0lt, hi0ge⟩ := Nat.find_spec hex
  have hup : exp + (cachedPow (-348 + 8 * (i0 : Int))).exp + 64 ≤ -32 := by
    rcases Nat.eq_zero_or_pos i0 with h0 | hpos
    · rw [h0]
      rw [show (-348 + 8 * ((0 : Nat) : Int)) = -348 from by norm_num,
        cachedPow_exp_first]
      omega
    · have hmin := Nat.find_min hex (show i0 - 1 < i0 from by omega)
      rw [not_and] at hmin
      have hprev := hmin (by omega)
      rw [not_le] at hprev
      have hadj := cachedPow_exp_adjacent (i0 - 1) (by omega)
      have hcast : ((i0 - 1 : Nat) : Int) + 1 = (i0 : Int) := by omega
      rw [hcast] at hadj
      omega
  have hpred : (fun i : Nat =>
      decide (-60 ≤ exp + (cachedPow (-348 + 8 * (i : Int))).exp + 64) &&
      decide (exp + (cachedPow (-348 + 8 * (i : Int))).exp + 64 ≤ -32)) i0 = true := by
    simp only [Bool.and_eq_true, decide_eq_true_eq]
    exact ⟨hi0ge, hup⟩
  cases hfq : (List.range 87).find? (fun i : Nat =>
      decide (-60 ≤ exp + (cachedPow (-348 + 8 * (i : Int))).exp + 64) &&
      decide (exp + (cachedPow (-348 + 8 * (i : Int))).exp + 64 ≤ -32)) with
  | none =>
    exfalso
    have hno := List.find?_eq_none.mp hfq i0 (List.mem_range.mpr hi0lt)
    simp only [Bool.and_eq_true, decide_eq_true_eq, not_and] at hno
    exact hno hi0ge hup
  | some j =>
    have hpj := List.find?_some hfq
    have hjmem := List.mem_of_find?_eq_some hfq
    rw [List.mem_range] at hjmem
    simp only [Bool.and_eq_true, decide_eq_true_eq] at hpj
    refine ⟨-348 + 8 * (j : Int), by omega, by omega, ?_, hpj.1, hpj.2⟩
    unfold cached_grisu_power
    rw [hfq]

/-- `normalizeAux` multiplies the mantissa by a power of two until the top bit
is set, decrementing the exponent accordingly. -/
theorem normalizeAux_spec : ∀ (fuel x : Nat) (e : Int), 1 ≤ x → x < 2 ^ 64 →
    2 ^ 63 ≤ x * 2 ^ fuel →
    ∃ c, c ≤ fuel ∧ normalizeAux fuel x e = ⟨x * 2 ^ c, e - (c : Int)⟩ ∧
      2 ^ 63 ≤ x * 2 ^ c ∧ x * 2 ^ c < 2 ^ 64 := by
  intro fuel
  induction fuel with
  | zero =>
    intro x e h1 h2 h3
    rw [pow_zero, Nat.mul_one] at h3
    refine ⟨0, le_refl _, ?_, by rw [pow_zero, Nat.mul_one]; exact h3,
      by rw [pow_zero, Nat.mul_one]; exact h2⟩
    show (⟨x, e⟩ : FloatType) = ⟨x * 2 ^ 0, e - ((0 : Nat) : Int)⟩
    simp
  | succ f ih =>
    intro x e h1 h2 h3
    rw [normalizeAux]
    by_cases hx : x < 2 ^ 63
    · rw [if_pos hx]
      obtain ⟨c, hc, heq, hlb, hub⟩ := ih (x * 2) (e - 1) (by omega) (by omega)
        (by
          rw [pow_succ] at h3
          calc (2 : Nat) ^ 63 ≤ x * (2 ^ f * 2) := h3
            _ = x * 2 * 2 ^ f := by ring)
      refine ⟨c + 1, by omega, ?_, ?_, ?_⟩
      · rw [heq]
        have hfr : x * 2 * 2 ^ c = x * 2 ^ (c + 1) := by
          rw [pow_succ]
          ring
        have hex : e - 1 - (c : Int) = e - ((c + 1 : Nat) : Int) := by
          push_cast
          ring
        rw [hfr, hex]
      · calc (2 : Nat) ^ 63 ≤ x * 2 * 2 ^ c := hlb
          _ = x * 2 ^ (c + 1) := by rw [pow_succ]; ring
      · calc x * 2 ^ (c + 1) = x * 2 * 2 ^ c := by rw [pow_succ]; ring
          _ < 2 ^ 64 := hub
    · rw [if_neg hx]
      refine ⟨0, Nat.zero_le _, ?_, by rw [pow_zero, Nat.mul_one]; omega,
        by rw [pow_zero, Nat.mul_one]; exact h2⟩
      show (⟨x, e⟩ : FloatType) = ⟨x * 2 ^ 0, e - ((0 : Nat) : Int)⟩
      simp

/-- `normalize` on a nonzero sub-`2^64` mantissa. -/
theorem normalize_spec (fp : FloatType) (h1 : 1 ≤ fp.frac)
    (h2 : fp.frac < 2 ^ 64) :
    ∃ c : Nat, c ≤ 64 ∧ normalize fp = ⟨fp.frac * 2 ^ c, fp.exp - (c : Int)⟩ ∧
      2 ^ 63 ≤ fp.frac * 2 ^ c ∧ fp.frac * 2 ^ c < 2 ^ 64 := by
  have h3 : 2 ^ 63 ≤ fp.frac * 2 ^ 64 := by
    calc (2 : Nat) ^ 63 ≤ 2 ^ 64 := by norm_num
      _ = 1 * 2 ^ 64 := (Nat.one_mul _).symm
      _ ≤ fp.frac * 2 ^ 64 := Nat.mul_le_mul_right _ h1
  exact normalizeAux_spec 64 fp.frac fp.exp h1 h2 h3

/-- `from_bits` on a positive, finite, non-NaN bit pattern produces a nonzero
mantissa of at most 53 bits and an exponent in `[-1074, 971]`. -/
theorem from_bits_spec (bits : Nat) (h1 : 1 ≤ bits) (h2 : bits < 2 ^ 63)
    (h3 : bits / 2 ^ 52 < 2047) :
    1 ≤ (from_bits bits).frac ∧ (from_bits bits).frac < 2 ^ 53 ∧
      -1074 ≤ (from_bits bits).exp ∧ (from_bits bits).exp ≤ 971 := by
  have hfield : bits / 2 ^ 52 < 2 ^ 11 := by
    have : bits / 2 ^ 52 < 2 ^ 63 / 2 ^ 52 + 1 := by
      have := Nat.div_le_div_right (c := 2 ^ 52) (Nat.le_of_lt h2)
      have hq : (2 : Nat) ^ 63 / 2 ^ 52 = 2 ^ 11 := by norm_num
      omega
    have hq : (2 : Nat) ^ 63 / 2 ^ 52 = 2 ^ 11 := by norm_num
    omega
  have hmodid : bits / 2 ^ 52 % 2 ^ 11 = bits / 2 ^ 52 :=
    Nat.mod_eq_of_lt hfield
  unfold from_bits
  rw [hmodid]
  by_cases hz : bits / 2 ^ 52 = 0
  · rw [if_pos hz]
    have hsmall : bits < 2 ^ 52 := by
      rcases Nat.lt_or_ge bits (2 ^ 52) with h | h
      · exact h
      · exfalso
        have := Nat.one_le_div_iff (show 0 < 2 ^ 52 from by positivity) |>.mpr h
        omega
    have hmod : bits % 2 ^ 52 = bits := Nat.mod_eq_of_lt hsmall
    rw [hmod]
    dsimp only
    refine ⟨h1, by omega, by norm_num, by norm_num⟩
  · rw [if_neg hz]
    dsimp only
    have hmlt : bits % 2 ^ 52 < 2 ^ 52 := Nat.mod_lt _ (by positivity)
    refine ⟨by omega, by omega, ?_, ?_⟩
    · have : (1 : Int) ≤ (bits / 2 ^ 52 : Nat) := by
        exact_mod_cast Nat.one_le_iff_ne_zero.mpr hz
      omega
    · have : ((bits / 2 ^ 52 : Nat) : Int) ≤ 2046 := by
        exact_mod_cast Nat.lt_succ_iff.mp h3
      omega

/-- `normalized_boundaries` on a decomposed double `fp` (mantissa below
`2^53`): the upper boundary is `(2f+1)` normalized by some shift `cu ∈
[10, 62]`, the value and lower boundary are aligned at the same exponent, and
the aligned gaps are `upper - w = 2^cu`, `w - lower ≥ 2^(cu-1)` and
`upper - lower ≥ 3·2^(cu-1)` (the power-of-two case `f = 2^52` giving the
asymmetric, narrower lower gap). -/
theorem normalized_boundaries_spec (fp : FloatType) (h1 : 1 ≤ fp.frac)
    (h2 : fp.frac < 2 ^ 53) :
    ∃ (cu : Nat) (lf : Nat), 10 ≤ cu ∧ cu ≤ 62 ∧
      (normalized_boundaries fp).2 =
        ⟨(2 * fp.frac + 1) * 2 ^ cu, fp.exp - 1 - (cu : Int)⟩ ∧
      2 ^ 63 ≤ (2 * fp.frac + 1) * 2 ^ cu ∧
      (2 * fp.frac + 1) * 2 ^ cu < 2 ^ 64 ∧
      normalize fp = ⟨fp.frac * 2 ^ (cu + 1), fp.exp - 1 - (cu : Int)⟩ ∧
      (normalized_boundaries fp).1 = ⟨lf, fp.exp - 1 - (cu : Int)⟩ ∧
      1 ≤ lf ∧
      lf + 2 ^ (cu - 1) ≤ fp.frac * 2 ^ (cu + 1) ∧
      fp.frac * 2 ^ (cu + 1) + 2 ^ cu = (2 * fp.frac + 1) * 2 ^ cu ∧
      lf + 3 * 2 ^ (cu - 1) ≤ (2 * fp.frac + 1) * 2 ^ cu := by
  have hx1 : 1 ≤ (⟨2 * fp.frac + 1, fp.exp - 1⟩ : FloatType).frac := by
    dsimp only
    omega
  have hx2 : (⟨2 * fp.frac + 1, fp.exp - 1⟩ : FloatType).frac < 2 ^ 64 := by
    dsimp only
    omega
  obtain ⟨cu, hcu64, hueq, hulb, huub⟩ :=
    normalize_spec ⟨2 * fp.frac + 1, fp.exp - 1⟩ hx1 hx2
  dsimp only at hueq hulb huub
  have hcu10 : 10 ≤ cu := by
    by_contra hcon
    have hc9 : (2 : Nat) ^ cu ≤ 2 ^ 9 := Nat.pow_le_pow_right (by omega) (by omega)
    have hlt : (2 * fp.frac + 1) * 2 ^ cu < 2 ^ 54 * 2 ^ 9 := by
      apply Nat.mul_lt_mul_of_lt_of_le (by omega) hc9 (by positivity)
    have : (2 : Nat) ^ 54 * 2 ^ 9 = 2 ^ 63 := by norm_num
    omega
  have hcu62 : cu ≤ 62 := by
    by_contra hcon
    have h3le : 2 * 2 ^ cu ≤ (2 * fp.frac + 1) * 2 ^ cu :=
      Nat.mul_le_mul_right _ (by omega)
    have hpp : (2 : Nat) * 2 ^ cu = 2 ^ (cu + 1) := (pow_succ' 2 cu).symm
    have h64 : (2 : Nat) ^ 64 ≤ 2 ^ (cu + 1) :=
      Nat.pow_le_pow_right (by omega) (by omega)
    omega
  obtain ⟨cw, hcw64, hweq, hwlb, hwub⟩ := normalize_spec fp h1 (by omega)
  have hcweq : cw = cu + 1 := by
    rcases Nat.lt_or_ge cw (cu + 1) with hlt | hge
    · exfalso
      have hmono : (2 : Nat) ^ (cw + 1) ≤ 2 ^ (cu + 1) :=
        Nat.pow_le_pow_right (by omega) (by omega)
      have h1' : 2 * (fp.frac * 2 ^ cw) = fp.frac * 2 ^ (cw + 1) := by
        rw [pow_succ]
        ring
      have h2' : fp.frac * 2 ^ (cw + 1) ≤ fp.frac * 2 ^ (cu + 1) :=
        Nat.mul_le_mul_left _ hmono
      have h3' : fp.frac * 2 ^ (cu + 1) + 2 ^ cu = (2 * fp.frac + 1) * 2 ^ cu := by
        rw [pow_succ]
        ring
      have h4' : (0 : Nat) < 2 ^ cu := Nat.pos_pow_of_pos _ (by omega)
      omega
    rcases Nat.lt_or_ge (cu + 1) cw with hlt2 | hge2
    · exfalso
      have hcancel : (2 : Nat) ^ (63 - cu) ≤ 2 * fp.frac + 1 := by
        have hsum : (2 : Nat) ^ (63 - cu) * 2 ^ cu = 2 ^ 63 := by
          rw [← pow_add]
          congr 1
          omega
        apply Nat.le_of_mul_le_mul_right _ (Nat.pos_pow_of_pos cu (show 0 < 2 from by omega))
        rw [hsum]
        exact hulb
      have hsplit : (2 : Nat) ^ (63 - cu) = 2 * 2 ^ (62 - cu) := by
        rw [← pow_succ']
        congr 1
        omega
      have hf : 2 ^ (62 - cu) ≤ fp.frac := by omega
      have hstep : fp.frac * 2 ^ (cu + 2) ≤ fp.frac * 2 ^ cw :=
        Nat.mul_le_mul_left _ (Nat.pow_le_pow_right (by omega) (by omega))
      have hbig : (2 : Nat) ^ (62 - cu) * 2 ^ (cu + 2) = 2 ^ 64 := by
        rw [← pow_add]
        congr 1
        omega
      have hbig2 : (2 : Nat) ^ 64 ≤ fp.frac * 2 ^ (cu + 2) := by
        calc (2 : Nat) ^ 64 = 2 ^ (62 - cu) * 2 ^ (cu + 2) := hbig.symm
          _ ≤ fp.frac * 2 ^ (cu + 2) := Nat.mul_le_mul_right _ hf
      omega
    omega
  rw [hcweq] at hweq hwlb hwub
  have hwe : fp.exp - ((cu + 1 : Nat) : Int) = fp.exp - 1 - (cu : Int) := by
    push_cast
    ring
  rw [hwe] at hweq
  unfold normalized_boundaries
  rw [hueq]
  by_cases hpow : fp.frac = 2 ^ 52
  · rw [if_pos hpow]
    dsimp only
    have hshift : (fp.exp - (2 : Nat) - (fp.exp - 1 - (cu : Int))).toNat = cu - 1 := by
      omega
    have hlf4 : fp.frac <<< 2 = 4 * fp.frac := by
      rw [Nat.shiftLeft_eq]
      ring
    have hsucc : 4 * fp.frac - 1 + 1 = 4 * fp.frac := Nat.sub_add_cancel (by omega)
    have hEq1 : (4 * fp.frac - 1) * 2 ^ (cu - 1) + 2 ^ (cu - 1) =
        4 * fp.frac * 2 ^ (cu - 1) := by
      rw [← Nat.succ_mul, Nat.succ_eq_add_one, hsucc]
    have hpp : (2 : Nat) ^ (cu + 1) = 4 * 2 ^ (cu - 1) := by
      rw [show cu + 1 = (cu - 1) + 2 from by omega, pow_add]
      ring
    have hpp2 : (2 : Nat) ^ cu = 2 * 2 ^ (cu - 1) := by
      have h := pow_succ 2 (cu - 1)
      rw [show cu - 1 + 1 = cu from by omega] at h
      omega
    have hEq2 : fp.frac * 2 ^ (cu + 1) = 4 * fp.frac * 2 ^ (cu - 1) := by
      rw [hpp]
      ring
    refine ⟨cu, (4 * fp.frac - 1) * 2 ^ (cu - 1), hcu10, hcu62, rfl, hulb, huub,
      hweq, ?_, ?_, ?_, ?_, ?_⟩
    · rw [hlf4, hshift, Nat.shiftLeft_eq]
    · exact Nat.mul_pos (by omega) (Nat.pos_pow_of_pos _ (by omega))
    · omega
    · rw [pow_succ]
      ring
    · have hEq3 : (2 * fp.frac + 1) * 2 ^ cu =
          4 * fp.frac * 2 ^ (cu - 1) + 2 * 2 ^ (cu - 1) := by
        rw [hpp2]
        ring
      omega
  · rw [if_neg hpow]
    dsimp only
    have hshift : (fp.exp - (1 : Nat) - (fp.exp - 1 - (cu : Int))).toNat = cu := by
      omega
    have hlf2 : fp.frac <<< 1 = 2 * fp.frac := by
      rw [Nat.shiftLeft_eq]
      ring
    have hsucc : 2 * fp.frac - 1 + 1 = 2 * fp.frac := Nat.sub_add_cancel (by omega)
    have hEq1 : (2 * fp.frac - 1) * 2 ^ cu + 2 ^ cu = 2 * fp.frac * 2 ^ cu := by
      rw [← Nat.succ_mul, Nat.succ_eq_add_one, hsucc]
    have hpp : (2 : Nat) ^ (cu + 1) = 2 * 2 ^ cu := pow_succ' 2 cu
    have hpp2 : (2 : Nat) ^ cu = 2 * 2 ^ (cu - 1) := by
      have h := pow_succ 2 (cu - 1)
      rw [show cu - 1 + 1 = cu from by omega] at h
      omega
    have hEq2 : fp.frac * 2 ^ (cu + 1) = 2 * fp.frac * 2 ^ cu := by
      rw [hpp]
      ring
    have hEq3 : (2 * fp.frac + 1) * 2 ^ cu = 2 * fp.frac * 2 ^ cu + 2 ^ cu := by
      ring
    refine ⟨cu, (2 * fp.frac - 1) * 2 ^ cu, hcu10, hcu62, rfl, hulb, huub,
      hweq, ?_, ?_, ?_, ?_, ?_⟩
    · rw [hlf2, hshift, Nat.shiftLeft_eq]
    · exact Nat.mul_pos (by omega) (Nat.pos_pow_of_pos _ (by omega))
    · have hcu1 : (2 : Nat) ^ (cu - 1) ≤ 2 ^ cu :=
        Nat.pow_le_pow_right (by omega) (by omega)
      omega
    · rw [pow_succ]
      ring
    · omega

theorem div_add_div_le (a b n : Nat) (hn : 0 < n) :
    a / n + b / n ≤ (a + b) / n := by
  rw [Nat.le_div_iff_mul_le hn, Nat.add_mul]
  exact Nat.add_le_add (Nat.div_mul_le_self a n) (Nat.div_mul_le_self b n)

/-- `fast_multiply` is monotone in the scaled mantissa. -/
theorem fm_mono (c x y : Nat) (h : x ≤ y) :
    (x * c + 2 ^ 63) / 2 ^ 64 ≤ (y * c + 2 ^ 63) / 2 ^ 64 := by
  apply Nat.div_le_div_right
  have := Nat.mul_le_mul_right c h
  omega

/-- A gap of `g` between scaled mantissas survives `fast_multiply` as a gap of
at least `g / 2` (the cached power mantissa is at least `2^63`). -/
theorem fm_gap (c x y g : Nat) (hc : 2 ^ 63 ≤ c) (h : x + g ≤ y) :
    (x * c + 2 ^ 63) / 2 ^ 64 + g / 2 ≤ (y * c + 2 ^ 63) / 2 ^ 64 := by
  have h1 : (x * c + 2 ^ 63) + g * 2 ^ 63 ≤ y * c + 2 ^ 63 := by
    have h2 : x * c + g * 2 ^ 63 ≤ x * c + g * c := by
      have := Nat.mul_le_mul_left g hc
      omega
    have h3 : x * c + g * c = (x + g) * c := by ring
    have h4 : (x + g) * c ≤ y * c := Nat.mul_le_mul_right c h
    omega
  have h5 : g * 2 ^ 63 / 2 ^ 64 = g / 2 := by
    rw [show (2 : Nat) ^ 64 = 2 ^ 63 * 2 from by norm_num,
      ← Nat.div_div_eq_div_mul, Nat.mul_div_cancel _ (by positivity)]
  calc (x * c + 2 ^ 63) / 2 ^ 64 + g / 2
      = (x * c + 2 ^ 63) / 2 ^ 64 + g * 2 ^ 63 / 2 ^ 64 := by rw [h5]
    _ ≤ (x * c + 2 ^ 63 + g * 2 ^ 63) / 2 ^ 64 := div_add_div_le _ _ _ (by positivity)
    _ ≤ (y * c + 2 ^ 63) / 2 ^ 64 := Nat.div_le_div_right h1

/-- The scaled mantissa stays below `2^64`. -/
theorem fm_ub (c x : Nat) (hc : c < 2 ^ 64) (hx : x < 2 ^ 64) :
    (x * c + 2 ^ 63) / 2 ^ 64 < 2 ^ 64 := by
  rw [Nat.div_lt_iff_lt_mul (by positivity)]
  have h1 : x * c ≤ (2 ^ 64 - 1) * (2 ^ 64 - 1) :=
    Nat.mul_le_mul (by omega) (by omega)
  have h2 : ((2 : Nat) ^ 64 - 1) * (2 ^ 64 - 1) + 2 ^ 63 < 2 ^ 64 * 2 ^ 64 := by
    norm_num
  omega

/-- Scaling a normalized mantissa by a normalized cached power keeps at least
62 bits. -/
theorem fm_lb (c x : Nat) (hc : 2 ^ 63 ≤ c) (hx : 2 ^ 63 ≤ x) :
    2 ^ 62 ≤ (x * c + 2 ^ 63) / 2 ^ 64 := by
  rw [Nat.le_div_iff_mul_le (by positivity)]
  have h1 : (2 : Nat) ^ 63 * 2 ^ 63 ≤ x * c := Nat.mul_le_mul hx hc
  have h2 : (2 : Nat) ^ 62 * 2 ^ 64 = 2 ^ 63 * 2 ^ 63 := by norm_num
  omega

/-- Soundness of the full `grisu2` pipeline on any positive, finite, non-NaN
double bit pattern: the scaled state handed to `generate_digits` satisfies all
invariants, so digit generation succeeds, yields only ASCII digits, and emits
at most 18 of them. -/
theorem grisu2_sound (bits : Nat) (h1 : 1 ≤ bits) (h2 : bits < 2 ^ 63)
    (h3 : bits / 2 ^ 52 < 2047) :
    ∃ ds k, grisu2 bits = some (ds, k) ∧ ds ≠ [] ∧
      (∀ b ∈ ds, 48 ≤ b ∧ b ≤ 57) ∧ ds.length ≤ 18 := by
  obtain ⟨hf1, hf2, he1, he2⟩ := from_bits_spec bits h1 h2 h3
  obtain ⟨cu, lf, hcu10, hcu62, hup, hulb, huub, hw, hlow, hlf1, hlgap, hwgap,
    hdgap⟩ := normalized_boundaries_spec (from_bits bits) hf1 hf2
  set f := (from_bits bits).frac with hfdef
  set e := (from_bits bits).exp with hedef
  obtain ⟨q, hq1, hq2, hcp, hwin1, hwin2⟩ :=
    cached_grisu_power_spec (e - 1 - (cu : Int)) (by omega) (by omega)
  obtain ⟨hcplb, hcpub⟩ := cachedPow_frac_bounds q (by omega) (by omega)
  set c := (cachedPow q).frac with hcdef
  set E := (e - 1 - (cu : Int)) + (cachedPow q).exp + 64 with hEdef
  set s := (-E).toNat with hsdef
  have hsE : E = -(s : Int) := by omega
  have h32 : 32 ≤ s := by omega
  have h60 : s ≤ 60 := by omega
  -- the three scaled mantissas
  set uA := (2 * f + 1) * 2 ^ cu with huAdef
  set wA := f * 2 ^ (cu + 1) with hwAdef
  have hfmU_ub : (uA * c + 2 ^ 63) / 2 ^ 64 < 2 ^ 64 := fm_ub c uA hcpub huub
  have hfmU_lb : 2 ^ 62 ≤ (uA * c + 2 ^ 63) / 2 ^ 64 := fm_lb c uA hcplb hulb
  have hcu1pos : 1 ≤ (2 : Nat) ^ (cu - 1) := Nat.one_le_pow _ _ (by omega)
  have hgap1 : (lf * c + 2 ^ 63) / 2 ^ 64 + 2 ^ (cu - 2) ≤
      (wA * c + 2 ^ 63) / 2 ^ 64 := by
    have h := fm_gap c lf wA (2 ^ (cu - 1)) hcplb hlgap
    have hdiv : (2 : Nat) ^ (cu - 1) / 2 = 2 ^ (cu - 2) := by
      have hp := pow_succ 2 (cu - 2)
      rw [show cu - 2 + 1 = cu - 1 from by omega] at hp
      omega
    rw [hdiv] at h
    exact h
  have hgap2 : (wA * c + 2 ^ 63) / 2 ^ 64 + 2 ^ (cu - 1) ≤
      (uA * c + 2 ^ 63) / 2 ^ 64 := by
    have h := fm_gap c wA uA (2 ^ cu) hcplb (by omega)
    have hdiv : (2 : Nat) ^ cu / 2 = 2 ^ (cu - 1) := by
      have hp := pow_succ 2 (cu - 1)
      rw [show cu - 1 + 1 = cu from by omega] at hp
      omega
    rw [hdiv] at h
    exact h
  have hgap3 : (lf * c + 2 ^ 63) / 2 ^ 64 + 3 * 2 ^ (cu - 2) ≤
      (uA * c + 2 ^ 63) / 2 ^ 64 := by
    have h := fm_gap c lf uA (3 * 2 ^ (cu - 1)) hcplb hdgap
    have hdiv : 3 * (2 : Nat) ^ (cu - 1) / 2 = 3 * 2 ^ (cu - 2) := by
      have hp := pow_succ 2 (cu - 2)
      rw [show cu - 2 + 1 = cu - 1 from by omega] at hp
      omega
    rw [hdiv] at h
    exact h
  have hcu2big : (256 : Nat) ≤ 2 ^ (cu - 2) := by
    calc (256 : Nat) = 2 ^ 8 := by norm_num
      _ ≤ 2 ^ (cu - 2) := Nat.pow_le_pow_right (by omega) (by omega)
  -- assemble the generate_digits invocation grisu2 makes
  obtain ⟨ds, k', hgen, hne, hrange, hlen⟩ :=
    generate_digits_sound
      ⟨(wA * c + 2 ^ 63) / 2 ^ 64, E⟩
      ⟨(uA * c + 2 ^ 63) / 2 ^ 64 - 1, E⟩
      ⟨(lf * c + 2 ^ 63) / 2 ^ 64 + 1, E⟩
      (-q) s hsE h32 h60 (by dsimp only; omega) (by dsimp only; omega)
      (by dsimp only; omega) (by dsimp only; omega) (by dsimp only; omega)
      (by dsimp only; omega)
  refine ⟨ds, k', ?_, hne, hrange, hlen (by dsimp only; omega)⟩
  show generate_digits
      (fast_multiply (normalize (from_bits bits))
        (cached_grisu_power (normalized_boundaries (from_bits bits)).2.exp).1)
      ⟨(fast_multiply (normalized_boundaries (from_bits bits)).2
          (cached_grisu_power (normalized_boundaries (from_bits bits)).2.exp).1).frac - 1,
        (fast_multiply (normalized_boundaries (from_bits bits)).2
          (cached_grisu_power (normalized_boundaries (from_bits bits)).2.exp).1).exp⟩
      ⟨(fast_multiply (normalized_boundaries (from_bits bits)).1
          (cached_grisu_power (normalized_boundaries (from_bits bits)).2.exp).1).frac + 1,
        (fast_multiply (normalized_boundaries (from_bits bits)).1
          (cached_grisu_power (normalized_boundaries (from_bits bits)).2.exp).1).exp⟩
      (-(cached_grisu_power (normalized_boundaries (from_bits bits)).2.exp).2)
      = some (ds, k')
  rw [hup, hw, hlow]
  dsimp only
  rw [hcp]
  dsimp only [fast_multiply]
  rw [← hcdef, ← hEdef]
  exact hgen
/-! ## Claim theorems on the digit generator -/

/-- C5 (counterexample to the `tmp ≤ delta` stop rule in the fractional
phase): on the scaled state with `upper.frac = 2^63 + 2^31 + 1000` and
`delta = 1000`, the first fractional step leaves an uncertainty of exactly
`10000 = 10 * delta` — so the claimed stop condition `tmp ≤ delta` holds —
yet the strict test `part2 < delta` of the code fails and generation
continues, emitting 17 digits where stopping there would have emitted 11
(ten integer digits plus one). -/
theorem generate_digits_fractional_equality_continues :
    (10 * ((2 ^ 63 + 2 ^ 31 + 1000 : Nat) % 2 ^ 32)) % 2 ^ 32 =
      10 * ((2 ^ 63 + 2 ^ 31 + 1000) - (2 ^ 63 + 2 ^ 31)) ∧
    (generate_digits ⟨2 ^ 63 + 2 ^ 31 + 500, -32⟩ ⟨2 ^ 63 + 2 ^ 31 + 1000, -32⟩
        ⟨2 ^ 63 + 2 ^ 31, -32⟩ 0).map (fun dk => dk.1.length) = some 17 := by
  constructor <;> decide

/-- C5, amended: on a scaled state, the integer part `p0 = upper.frac >> s` is
divided against the descending power-of-ten table: if step `i` is the first
whose uncertainty test `tmp ≤ delta` passes, the emitted bytes are exactly the
most-significant-first decimal digits of `p0 / 10^(9-i)` (leading zeros
skipped, at most 10 of them) handed to `round_digit`; the fractional loop is
entered (one digit per multiply-by-10 step) only if all ten integer steps fail
the test; and the fractional-phase stop test is strict — when the remaining
uncertainty exactly equals the scaled `delta` the loop continues instead of
stopping. -/
theorem generate_digits_stop_structure (fp upper lower : FloatType) (k : Int)
    (s : Nat) (hse : upper.exp = -(s : Int)) (h32 : 32 ≤ s) (h60 : s ≤ 60)
    (hu64 : upper.frac < 2 ^ 64) (hfu : fp.frac ≤ upper.frac)
    (hlu : lower.frac ≤ upper.frac) :
    (∀ i, i < 10 →
      (∀ j, j < i → upper.frac - lower.frac <
        upper.frac / 2 ^ s % 10 ^ (10 - 1 - j) * 2 ^ s + upper.frac % 2 ^ s) →
      upper.frac / 2 ^ s % 10 ^ (10 - 1 - i) * 2 ^ s + upper.frac % 2 ^ s ≤
        upper.frac - lower.frac →
      generate_digits fp upper lower k =
        (round_digit 64 (asciiDigits (upper.frac / 2 ^ s / 10 ^ (10 - 1 - i)))
          (upper.frac - lower.frac)
          (upper.frac / 2 ^ s % 10 ^ (10 - 1 - i) * 2 ^ s + upper.frac % 2 ^ s)
          (wshl (10 ^ (10 - 1 - i)) s) (upper.frac - fp.frac)).map
          (fun ds => (ds, k + ((10 - 1 - i : Nat) : Int))) ∧
        (asciiDigits (upper.frac / 2 ^ s / 10 ^ (10 - 1 - i))).length ≤ 10) ∧
    ((∀ j, j < 10 → upper.frac - lower.frac <
        upper.frac / 2 ^ s % 10 ^ (10 - 1 - j) * 2 ^ s + upper.frac % 2 ^ s) →
      generate_digits fp upper lower k =
        fracLoop s (upper.frac - fp.frac) (2 ^ s) k ((TENS.take 19).reverse)
          (upper.frac % 2 ^ s) (upper.frac - lower.frac) 0
          (asciiDigits (upper.frac / 2 ^ s))) ∧
    (∀ (unit : Nat) (units : List Nat) (part2 delta : Nat) (kappa : Int)
        (digits : List Nat), digits ≠ [] →
      wmul part2 10 &&& (2 ^ s - 1) = wmul delta 10 →
      fracLoop s (upper.frac - fp.frac) (2 ^ s) k (unit :: units) part2 delta
          kappa digits =
        fracLoop s (upper.frac - fp.frac) (2 ^ s) k units (wmul delta 10)
          (wmul delta 10) (kappa - 1)
          (digits ++ [(wmul part2 10 >>> s % 256 + 48) % 256])) := by
  have hgeq := generate_digits_eq fp upper lower k s hse h60 hu64 hfu hlu
  have hp0lt : upper.frac / 2 ^ s < 2 ^ (64 - s) := by
    rw [Nat.div_lt_iff_lt_mul (Nat.pos_pow_of_pos s (by omega)), ← pow_add]
    rw [show 64 - s + s = 64 from by omega]
    exact hu64
  have hp010 : upper.frac / 2 ^ s < 10 ^ 10 := by
    have h1 : (2 : Nat) ^ (64 - s) ≤ 2 ^ 32 :=
      Nat.pow_le_pow_right (by omega) (by omega)
    have h2 : (2 : Nat) ^ 32 < 10 ^ 10 := by norm_num
    omega
  have hUsum : 2 ^ s * (upper.frac / 2 ^ s) + upper.frac % 2 ^ s = upper.frac :=
    Nat.div_add_mod _ _
  have hnw : upper.frac / 2 ^ s * 2 ^ s + upper.frac % 2 ^ s < 2 ^ 64 := by
    rw [Nat.mul_comm]
    omega
  obtain ⟨hchar1, hchar2⟩ := intLoop_char s (upper.frac - fp.frac)
    (upper.frac - lower.frac) (upper.frac % 2 ^ s) (2 ^ s) k 10 0
    (upper.frac / 2 ^ s) hp010 hnw
  rw [show (0 * 10 ^ 10 + upper.frac / 2 ^ s) = upper.frac / 2 ^ s from by ring]
    at hchar1 hchar2
  refine ⟨?_, ?_, ?_⟩
  · intro i hi hprev hstop
    refine ⟨by rw [hgeq]; exact hchar2 i hi hprev hstop, ?_⟩
    rw [show (asciiDigits (upper.frac / 2 ^ s / 10 ^ (10 - 1 - i))).length =
      (digitsOf (upper.frac / 2 ^ s / 10 ^ (10 - 1 - i))).length from
      List.length_map _ _]
    apply digitsOf_length_le
    exact lt_of_le_of_lt (Nat.div_le_self _ _) hp010
  · intro hall
    rw [hgeq]
    exact hchar1 hall
  · intro unit units part2 delta kappa digits hne hEqMask
    rw [fracLoop]
    simp only [if_pos (Or.inr hne), hEqMask, if_neg (lt_irrefl (wmul delta 10))]

/-- Witness for `generate_digits_stop_structure`: a scaled state with
`s = 32`, `upper.frac = 2^63 + 7`, where every integer-part stop test fails
until the last divisor (`i = 9`) and the full ten digits of `2^31` are
emitted. -/
theorem generate_digits_stop_structure_witness :
    ((⟨2 ^ 63 + 7, -32⟩ : FloatType).exp = -((32 : Nat) : Int) ∧
      32 ≤ 32 ∧ (32 : Nat) ≤ 60 ∧ (2 ^ 63 + 7 : Nat) < 2 ^ 64 ∧
      (⟨2 ^ 63 - 1000, -32⟩ : FloatType).frac ≤ (⟨2 ^ 63 + 7, -32⟩ : FloatType).frac ∧
      (⟨2 ^ 63 - 2000, -32⟩ : FloatType).frac ≤ (⟨2 ^ 63 + 7, -32⟩ : FloatType).frac) ∧
    (generate_digits ⟨2 ^ 63 - 1000, -32⟩ ⟨2 ^ 63 + 7, -32⟩ ⟨2 ^ 63 - 2000, -32⟩ 0 =
      (round_digit 64
        (asciiDigits ((2 ^ 63 + 7) / 2 ^ 32 / 10 ^ (10 - 1 - 9)))
        ((2 ^ 63 + 7) - (2 ^ 63 - 2000))
        ((2 ^ 63 + 7) / 2 ^ 32 % 10 ^ (10 - 1 - 9) * 2 ^ 32 + (2 ^ 63 + 7) % 2 ^ 32)
        (wshl (10 ^ (10 - 1 - 9)) 32) ((2 ^ 63 + 7) - (2 ^ 63 - 1000))).map
        (fun ds => (ds, 0 + ((10 - 1 - 9 : Nat) : Int))) ∧
      (asciiDigits ((2 ^ 63 + 7) / 2 ^ 32 / 10 ^ (10 - 1 - 9))).length ≤ 10) :=
  ⟨⟨rfl, by decide, by decide, by decide, by decide, by decide⟩,
    (generate_digits_stop_structure ⟨2 ^ 63 - 1000, -32⟩ ⟨2 ^ 63 + 7, -32⟩
      ⟨2 ^ 63 - 2000, -32⟩ 0 32 rfl (by decide) (by decide) (by decide)
      (by decide) (by decide)).1 9 (by decide) (by decide) (by decide)⟩

/-- C6: for every valid input bit pattern (finite, positive, non-zero f64),
the digit buffer returned by `grisu2` holds only bytes in the ASCII range
`'0'..='9'` — in particular the `round_digit` loop never decrements a digit
below `'0'`. -/
theorem grisu2_ascii_digits (bits : Nat) (h1 : 1 ≤ bits) (h2 : bits < 2 ^ 63)
    (h3 : bits / 2 ^ 52 < 2047) :
    ∃ ds k, grisu2 bits = some (ds, k) ∧ ∀ b ∈ ds, 48 ≤ b ∧ b ≤ 57 := by
  obtain ⟨ds, k, hg, _, hr, _⟩ := grisu2_sound bits h1 h2 h3
  exact ⟨ds, k, hg, hr⟩

/-- Witness for `grisu2_ascii_digits` at the bit pattern of `1.5_f64`. -/
theorem grisu2_ascii_digits_witness :
    (1 ≤ 1023 * 2 ^ 52 + 2 ^ 51 ∧ 1023 * 2 ^ 52 + 2 ^ 51 < 2 ^ 63 ∧
      (1023 * 2 ^ 52 + 2 ^ 51) / 2 ^ 52 < 2047) ∧
    (∃ ds k, grisu2 (1023 * 2 ^ 52 + 2 ^ 51) = some (ds, k) ∧
      ∀ b ∈ ds, 48 ≤ b ∧ b ≤ 57) :=
  ⟨⟨by decide, by decide, by decide⟩,
    grisu2_ascii_digits (1023 * 2 ^ 52 + 2 ^ 51) (by decide) (by decide)
      (by decide)⟩

/-- C7: for every valid input bit pattern (finite, positive, non-zero f64),
`fpconv_dtoa` is total: digit generation — in particular the fractional-part
loop, which multiplies `part2` and `delta` by 10 each iteration — exits after
finitely many iterations and a result is returned. -/
theorem fpconv_dtoa_total (bits : Nat) (h1 : 1 ≤ bits) (h2 : bits < 2 ^ 63)
    (h3 : bits / 2 ^ 52 < 2047) :
    (fpconv_dtoa bits).isSome = true := by
  obtain ⟨ds, k, hg, _, _, _⟩ := grisu2_sound bits h1 h2 h3
  unfold fpconv_dtoa
  rw [hg]
  rfl

/-- Witness for `fpconv_dtoa_total` at bit pattern 1, the smallest positive
denormal (`5e-324`). -/
theorem fpconv_dtoa_total_witness :
    ((1 : Nat) ≤ 1 ∧ (1 : Nat) < 2 ^ 63 ∧ (1 : Nat) / 2 ^ 52 < 2047) ∧
    (fpconv_dtoa 1).isSome = true :=
  ⟨⟨by decide, by decide, by decide⟩,
    fpconv_dtoa_total 1 (by decide) (by decide) (by decide)⟩

/-- C9: for every valid input bit pattern (finite, positive, non-zero f64),
`grisu2` emits at most 18 digit bytes, so the fixed 18-byte digit array
allocated in `fpconv_dtoa` is never written out of bounds. -/
theorem grisu2_at_most_18_digits (bits : Nat) (h1 : 1 ≤ bits)
    (h2 : bits < 2 ^ 63) (h3 : bits / 2 ^ 52 < 2047) :
    ∃ ds k, grisu2 bits = some (ds, k) ∧ ds.length ≤ 18 := by
  obtain ⟨ds, k, hg, _, _, hl⟩ := grisu2_sound bits h1 h2 h3
  exact ⟨ds, k, hg, hl⟩

/-- Witness for `grisu2_at_most_18_digits` at the bit pattern of `1.0_f64`. -/
theorem grisu2_at_most_18_digits_witness :
    (1 ≤ 1023 * 2 ^ 52 ∧ 1023 * 2 ^ 52 < 2 ^ 63 ∧
      (1023 * 2 ^ 52 : Nat) / 2 ^ 52 < 2047) ∧
    (∃ ds k, grisu2 (1023 * 2 ^ 52) = some (ds, k) ∧ ds.length ≤ 18) :=
  ⟨⟨by decide, by decide, by decide⟩,
    grisu2_at_most_18_digits (1023 * 2 ^ 52) (by decide) (by decide)
      (by decide)⟩

/-! ## Claim theorems on the digit emitter -/

/-- C2: with `k ≥ 0` and `|k+n-1| < n+7`, `emit_digits` writes the `n` digits,
then `k` ASCII `'0'` bytes, then `".0"`, and the byte count written (the
source's return value `ndigits + k + 2`) is `n + k + 2`. -/
theorem emit_digits_plain_integer (digits : List Nat) (k : Int)
    (hk : 0 ≤ k)
    (hexp : ((k + (digits.length : Int) - 1).natAbs : Int) < (digits.length : Int) + 7) :
    emit_digits digits k = digits ++ List.replicate k.toNat 48 ++ [46, 48] ∧
    (emit_digits digits k).length = digits.length + k.toNat + 2 := by
  have h : emit_digits digits k = digits ++ List.replicate k.toNat 48 ++ [46, 48] := by
    unfold emit_digits
    rw [if_pos ⟨hk, hexp⟩]
  refine ⟨h, ?_⟩
  rw [h]
  simp only [List.length_append, List.length_replicate, List.length_cons,
    List.length_nil]

/-- Witness for `emit_digits_plain_integer` at `digits = "1"`, `k = 7`
(the digits of `1e7`). -/
theorem emit_digits_plain_integer_witness :
    ((0 : Int) ≤ 7 ∧ ((((7 : Int) + ([49].length : Int) - 1).natAbs : Int) <
      ([49].length : Int) + 7)) ∧
    emit_digits [49] 7 = [49] ++ List.replicate (7 : Int).toNat 48 ++ [46, 48] ∧
    (emit_digits [49] 7).length = [49].length + (7 : Int).toNat + 2 :=
  ⟨by decide, emit_digits_plain_integer [49] 7 (by decide) (by decide)⟩

/-- C3: with `k < 0` and (`k > -7` or `|k+n-1| < 4`), `emit_digits` writes
plain decimal-point notation: when `n ≤ |k|` it writes `"0."`, `|k| - n`
zeros, then the digits (length `n + 2 + (|k| - n)`); otherwise it splits the
digits around a `'.'` after the first `n - |k|` of them (length `n + 1`). -/
theorem emit_digits_plain_decimal (digits : List Nat) (k : Int)
    (hk : k < 0)
    (hcond : -7 < k ∨ ((k + (digits.length : Int) - 1).natAbs : Int) < 4) :
    (digits.length ≤ k.natAbs →
      emit_digits digits k =
        48 :: 46 :: (List.replicate (k.natAbs - digits.length) 48 ++ digits) ∧
      (emit_digits digits k).length = digits.length + 2 + (k.natAbs - digits.length)) ∧
    (k.natAbs < digits.length →
      emit_digits digits k =
        digits.take (digits.length - k.natAbs) ++ [46] ++
          digits.drop (digits.length - k.natAbs) ∧
      (emit_digits digits k).length = digits.length + 1) := by
  have hnot1 : ¬(0 ≤ k ∧
      ((k + (digits.length : Int) - 1).natAbs : Int) < (digits.length : Int) + 7) := by
    intro h; omega
  constructor
  · intro hle
    have h : emit_digits digits k =
        48 :: 46 :: (List.replicate (k.natAbs - digits.length) 48 ++ digits) := by
      unfold emit_digits
      rw [if_neg hnot1, if_pos ⟨hk, hcond⟩,
        if_pos (by omega : (digits.length : Int) - (k.natAbs : Int) ≤ 0),
        show ((k.natAbs : Int) - (digits.length : Int)).toNat =
          k.natAbs - digits.length from by omega]
    refine ⟨h, ?_⟩
    rw [h]
    simp only [List.length_append, List.length_replicate, List.length_cons,
      List.length_nil]
    omega
  · intro hlt
    have h : emit_digits digits k =
        digits.take (digits.length - k.natAbs) ++ [46] ++
          digits.drop (digits.length - k.natAbs) := by
      unfold emit_digits
      rw [if_neg hnot1, if_pos ⟨hk, hcond⟩,
        if_neg (by omega : ¬((digits.length : Int) - (k.natAbs : Int) ≤ 0))]
      have : ((digits.length : Int) - (k.natAbs : Int)).toNat = digits.length - k.natAbs := by
        omega
      rw [this]
    refine ⟨h, ?_⟩
    rw [h]
    simp only [List.length_append, List.length_take, List.length_drop,
      List.length_cons, List.length_nil]
    omega

/-- Witness for `emit_digits_plain_decimal` at `digits = "15"`, `k = -1`
(the digits of `1.5`). -/
theorem emit_digits_plain_decimal_witness :
    ((-1 : Int) < 0 ∧ (-7 < (-1 : Int) ∨
      ((((-1 : Int) + ([49, 53].length : Int) - 1).natAbs : Int) < 4))) ∧
    ((-1 : Int).natAbs < [49, 53].length →
      emit_digits [49, 53] (-1) =
        [49, 53].take ([49, 53].length - (-1 : Int).natAbs) ++ [46] ++
          [49, 53].drop ([49, 53].length - (-1 : Int).natAbs) ∧
      (emit_digits [49, 53] (-1)).length = [49, 53].length + 1) :=
  ⟨by decide, (emit_digits_plain_decimal [49, 53] (-1) (by decide) (by decide)).2⟩

/-- C4, counterexample: with a single digit (`"1"`, `k = 8`, the digits of
`1e8`) the scientific branch is selected and emits `"1e+8"`, which contains no
`'.'` byte — so the output does not consist of the leading digit, a `'.'`, and
the remaining digits as literally claimed. -/
theorem emit_digits_sci_single_digit_no_point :
    emit_digits [49] 8 = [49, 101, 43, 56] ∧ 46 ∉ emit_digits [49] 8 := by
  constructor <;> decide

/-- C4, amended: when neither plain branch is selected, `emit_digits` writes
one leading digit, then — only when the (18-capped) digit count exceeds one —
a `'.'` and the remaining capped digits, then the exponent marker, an explicit
`'+'`/`'-'` sign, and 1 to 3 ASCII digits for `|k+n-1|` with no leading zero
padding, except that a tens digit of zero is still written when a hundreds
digit is present (e.g. 305 gives `'3','0','5'`, 5 gives just `'5'`). -/
theorem emit_digits_scientific (digits : List Nat) (k : Int)
    (hn : 1 ≤ digits.length)
    (hb1 : ¬(0 ≤ k ∧
      ((k + (digits.length : Int) - 1).natAbs : Int) < (digits.length : Int) + 7))
    (hb2 : ¬(k < 0 ∧ (-7 < k ∨ ((k + (digits.length : Int) - 1).natAbs : Int) < 4)))
    (hexp : (k + (digits.length : Int) - 1).natAbs ≤ 999) :
    emit_digits digits k =
      (if 1 < min digits.length 18 then
        digits.headD 0 :: 46 :: (digits.drop 1).take (min digits.length 18 - 1)
      else [digits.headD 0]) ++
      [101, if k + (min digits.length 18 : Int) - 1 < 0 then 45 else 43] ++
      (if 99 < (k + (digits.length : Int) - 1).natAbs then
        [(k + (digits.length : Int) - 1).natAbs / 100 + 48,
         (k + (digits.length : Int) - 1).natAbs % 100 / 10 + 48,
         (k + (digits.length : Int) - 1).natAbs % 10 + 48]
      else if 9 < (k + (digits.length : Int) - 1).natAbs then
        [(k + (digits.length : Int) - 1).natAbs / 10 + 48,
         (k + (digits.length : Int) - 1).natAbs % 10 + 48]
      else [(k + (digits.length : Int) - 1).natAbs + 48]) := by
  have he : ∀ e : Nat, e ≤ 999 → sciExpDigits e =
      (if 99 < e then [e / 100 + 48, e % 100 / 10 + 48, e % 10 + 48]
      else if 9 < e then [e / 10 + 48, e % 10 + 48]
      else [e + 48]) := by
    intro e he999
    unfold sciExpDigits
    rcases Nat.lt_or_ge 99 e with h99 | h99
    · rcases Nat.lt_or_ge 9 (e % 100) with h9 | h9
      · simp only [if_pos h99, if_pos h9, List.cons_append, List.nil_append,
          List.cons.injEq, and_true]
        omega
      · simp only [if_pos h99, if_neg (show ¬9 < e % 100 by omega),
          List.cons_append, List.nil_append, List.cons.injEq, and_true]
        omega
    · rcases Nat.lt_or_ge 9 e with h9 | h9
      · simp only [if_neg (show ¬99 < e by omega),
          if_pos (show 9 < e % 100 by omega), if_pos h9, List.cons_append,
          List.nil_append, List.cons.injEq, and_true]
        omega
      · simp only [if_neg (show ¬99 < e by omega),
          if_neg (show ¬9 < e % 100 by omega), if_neg (show ¬9 < e by omega),
          List.cons_append, List.nil_append, List.cons.injEq, and_true]
        omega
  unfold emit_digits
  rw [if_neg hb1, if_neg hb2, he _ hexp]
  rfl

/-- Witness for `emit_digits_scientific` at `digits = "15"`, `k = 300`
(scientific output `"1.5e+301"`, exercising the zero-tens rule). -/
theorem emit_digits_scientific_witness :
    (1 ≤ [49, 53].length ∧
      ¬(0 ≤ (300 : Int) ∧
        ((((300 : Int) + ([49, 53].length : Int) - 1).natAbs : Int) <
          ([49, 53].length : Int) + 7)) ∧
      ¬((300 : Int) < 0 ∧ (-7 < (300 : Int) ∨
        ((((300 : Int) + ([49, 53].length : Int) - 1).natAbs : Int) < 4))) ∧
      (((300 : Int) + ([49, 53].length : Int) - 1).natAbs ≤ 999)) ∧
    emit_digits [49, 53] 300 = [49, 46, 53, 101, 43, 51, 48, 49] :=
  ⟨by decide, by
    have h := emit_digits_scientific [49, 53] 300 (by decide) (by decide)
      (by decide) (by decide)
    rw [h]
    decide⟩

/-- C8: at the documented threshold, `fpconv_dtoa(1e7)` takes the plain-integer
branch and writes exactly `"10000000.0"`, while `fpconv_dtoa(1e8)` — whose
digits are `"1"` with `k = 8`, failing the `k ≥ 0` branch test
`|k+n-1| < n+7` (`8 < 8`) — takes the scientific branch and writes `"1e+8"`. -/
theorem fpconv_dtoa_threshold :
    fpconv_dtoa bits1e7 = some [49, 48, 48, 48, 48, 48, 48, 48, 46, 48] ∧
    grisu2 bits1e8 = some ([49], 8) ∧
    fpconv_dtoa bits1e8 = some [49, 101, 43, 56] := by
  refine ⟨?_, ?_, ?_⟩ <;> decide

/-- C10: for every negative value of a `w`-bit signed integer type, including
the minimum, `signed` writes `'-'` followed by the decimal digits of
`value.unsigned_abs()`, one byte more than the unsigned formatting of the
magnitude; the magnitude fits the unsigned type (no overflow), and
`i64::MIN = -2^63` formats as `"-9223372036854775808"`. -/
theorem signed_negative_format (w : Nat) (v : Int) (rs : Bool)
    (hw : 1 ≤ w) (hlo : -(2 ^ (w - 1) : Int) ≤ v) (hv : v < 0) :
    signed rs v = 45 :: write_mantissa v.natAbs ∧
    (signed rs v).length = 1 + (write_mantissa v.natAbs).length ∧
    (v.natAbs : Int) ≤ 2 ^ (w - 1) ∧
    signed rs (-(2 ^ 63)) =
      [45, 57, 50, 50, 51, 51, 55, 50, 48, 51, 54, 56, 53, 52, 55, 55, 53, 56, 48, 56] := by
  have h1 : signed rs v = 45 :: write_mantissa v.natAbs := by
    unfold signed
    rw [if_pos hv]
  refine ⟨h1, by rw [h1]; simp [List.length_cons]; omega, ?_, ?_⟩
  · generalize hgen : (2 : Int) ^ (w - 1) = t at hlo ⊢
    omega
  · unfold signed
    rw [if_pos (by norm_num : -(2 ^ 63 : Int) < 0)]
    decide

/-- Witness for `signed_negative_format` at `w = 64`, `v = -5`, no required
sign. -/
theorem signed_negative_format_witness :
    ((1 : Nat) ≤ 64 ∧ -(2 ^ (64 - 1) : Int) ≤ -5 ∧ (-5 : Int) < 0) ∧
    (signed false (-5) = 45 :: write_mantissa (-5 : Int).natAbs ∧
      (signed false (-5)).length = 1 + (write_mantissa (-5 : Int).natAbs).length ∧
      ((-5 : Int).natAbs : Int) ≤ 2 ^ (64 - 1) ∧
      signed false (-(2 ^ 63)) =
        [45, 57, 50, 50, 51, 51, 55, 50, 48, 51, 54, 56, 53, 52, 55, 55, 53, 56, 48, 56]) :=
  ⟨⟨by decide, by decide, by decide⟩,
    signed_negative_format 64 (-5) false (by decide) (by decide) (by decide)⟩

end RustLexical

